import Mathlib

/-!
Verification of the free rigid monoidal category implementation
(`rigidcat.py` of the discopy package).

Objects are simple pregroup types (a basic name with an integer winding
number); types are lists of objects; diagrams are lists of boxes with
grafting offsets.  The lower monoidal layer (`moncat`) is not part of the
sources; the definitions taken from it are modelled from the specification
and are marked `Modelled from the spec` in their doc comments.
-/

/-- Error kinds raised by the Python implementation.  `typeErr` models
`TypeError`, `axiomErr` models `cat.AxiomError`, `valueErr` models
`ValueError`, `notImplementedErr` models `NotImplementedError`, `keyErr`
models `KeyError`, `interchangerErr` models the interchanger failure of the
monoidal layer and `indexErr` models `IndexError`.  `outOfFuel` is a model
artifact marking exhaustion of the explicit recursion bound of the
normalization loop; it corresponds to no Python behaviour. -/
inductive Err where
  | typeErr
  | axiomErr
  | valueErr
  | notImplementedErr
  | keyErr
  | interchangerErr
  | indexErr
  | outOfFuel
deriving DecidableEq, Repr

/-- Simple pregroup object (`rigidcat.Ob`): a basic name together with an
integer winding number `z`. -/
structure Ob where
  name : String
  z : Int
deriving DecidableEq, Repr

/-- Left adjoint of a simple object (`rigidcat.Ob.l`). -/
def Ob.l (o : Ob) : Ob := ⟨o.name, o.z - 1⟩

/-- Right adjoint of a simple object (`rigidcat.Ob.r`). -/
def Ob.r (o : Ob) : Ob := ⟨o.name, o.z + 1⟩

/-- Pregroup types (`rigidcat.Ty`) are lists of simple objects; the tensor
of the monoidal layer is list concatenation. -/
abbrev Ty := List Ob

/-- Left adjoint of a type: pointwise left adjoints of the reversed list
(`rigidcat.Ty.l`). -/
def tyL (t : Ty) : Ty := t.reverse.map Ob.l

/-- Right adjoint of a type: pointwise right adjoints of the reversed list
(`rigidcat.Ty.r`). -/
def tyR (t : Ty) : Ty := t.reverse.map Ob.r

@[simp] theorem Ob.l_r (o : Ob) : o.l.r = o := by
  cases o
  simp [Ob.l, Ob.r]

@[simp] theorem Ob.r_l (o : Ob) : o.r.l = o := by
  cases o
  simp [Ob.l, Ob.r]

theorem Ob.r_ne_l (o : Ob) : ¬ (o.r = o.l) := by
  cases o
  simp [Ob.l, Ob.r]
  omega

theorem Ob.l_ne_r (o : Ob) : ¬ (o.l = o.r) := by
  cases o
  simp [Ob.l, Ob.r]
  omega

theorem Ob.rr_ne_self (o : Ob) : ¬ (o.r.r = o) := by
  cases o
  simp [Ob.r]
  omega

theorem Ob.ll_ne_self (o : Ob) : ¬ (o.l.l = o) := by
  cases o
  simp [Ob.l]
  omega

theorem Ob.ne_rr_of (u v : Ob) (h : u.r = v) : ¬ (u = v.r) := by
  cases u
  cases v
  simp_all [Ob.r]
  omega

/-- Python values an `Ob` may be compared against: a rigid object, a plain
categorical object without winding number (`cat.Ob`), a type, an integer or
a string. -/
inductive PyVal where
  | rigid (o : Ob)
  | plainOb (name : String)
  | ty (t : Ty)
  | int (n : Int)
  | str (s : String)
deriving DecidableEq, Repr

/-- Equality test `rigidcat.Ob.__eq__`: `False` unless the other value is an
instance of the rigid `Ob` class, in which case it is structural equality of
the pair (name, winding number). -/
def obEqPy (o : Ob) (v : PyVal) : Bool :=
  match v with
  | .rigid o2 => decide ((o.name, o.z) = (o2.name, o2.z))
  | _ => false

/-- Kind tag distinguishing plain generators from cups and caps; the source
dispatches with `isinstance` checks against the `Cup` and `Cap` classes. -/
inductive BoxKind where
  | generic
  | cup
  | cap
deriving DecidableEq, Repr

/-- Generator of a diagram (`rigidcat.Box`): a name, domain, codomain, the
kind tag and the dagger flag. -/
structure Box where
  name : String
  dom : Ty
  cod : Ty
  kind : BoxKind
  dg : Bool
deriving DecidableEq, Repr

/-- Diagram in the free rigid monoidal category (`rigidcat.Diagram`): a
domain, a codomain and a list of boxes with one grafting offset each. -/
structure Diagram where
  dom : Ty
  cod : Ty
  boxes : List Box
  offsets : List Nat
deriving DecidableEq, Repr

/-- Identity diagram (`rigidcat.Id`). -/
def idD (t : Ty) : Diagram := ⟨t, t, [], []⟩

/-- View of a box as the one-box diagram it denotes (`rigidcat.Box.__init__`
registers the box as its own only entry at offset 0). -/
def Box.asDiagram (b : Box) : Diagram := ⟨b.dom, b.cod, [b], [0]⟩

/-- Modelled from the spec: sequential composition `then(other)` of the
absent `moncat.Diagram` layer - it requires `cod = dom` (a TypeMismatch
failure otherwise) and concatenates the box and offset lists. -/
def Diagram.comp (f g : Diagram) : Except Err Diagram :=
  if f.cod = g.dom then
    .ok ⟨f.dom, g.cod, f.boxes ++ g.boxes, f.offsets ++ g.offsets⟩
  else .error .axiomErr

/-- Modelled from the spec: parallel composition `tensor(other)` of the
absent `moncat.Diagram` layer - width-wise juxtaposition, shifting the
offsets of the right diagram by the width of the left codomain (this is the
offset bookkeeping matching the doctests of `rigidcat.Diagram.cups`). -/
def Diagram.tensor (f g : Diagram) : Diagram :=
  ⟨f.dom ++ g.dom, f.cod ++ g.cod, f.boxes ++ g.boxes,
    f.offsets ++ g.offsets.map (fun n => n + f.cod.length)⟩

/-- Cup constructor (`rigidcat.Cup.__init__`): adjointness check, singleton
check and rejection of the unsupported pivotal direction, in source order. -/
def Cup.make (x y : Ty) : Except Err Diagram :=
  if tyR x ≠ y ∧ x ≠ tyR y then .error .axiomErr
  else if ¬(x.length = 1 ∧ y.length = 1) then .error .valueErr
  else if x = tyR y then .error .notImplementedErr
  else .ok (Box.asDiagram ⟨"Cup", x ++ y, [], .cup, false⟩)

/-- Cap constructor (`rigidcat.Cap.__init__`): adjointness check, singleton
check and rejection of the unsupported pivotal direction, in source order. -/
def Cap.make (x y : Ty) : Except Err Diagram :=
  if x ≠ tyR y ∧ tyR x ≠ y then .error .axiomErr
  else if ¬(x.length = 1 ∧ y.length = 1) then .error .valueErr
  else if tyR x = y then .error .notImplementedErr
  else .ok (Box.asDiagram ⟨"Cap", [], x ++ y, .cap, false⟩)

/-- Loop body of `rigidcat.Diagram.cups`: the counter `k` is the number of
remaining iterations, so the Python loop index is `i = x.length - k` and
`j = x.length - i - 1`. -/
def cupsGo (x y : Ty) : Nat → Diagram → Except Err Diagram
  | 0, acc => .ok acc
  | k + 1, acc => do
    let i := x.length - (k + 1)
    let j := x.length - i - 1
    let c ← Cup.make ((x.drop j).take 1) ((y.drop i).take 1)
    let piece := ((idD (x.take j)).tensor c).tensor (idD (y.drop (i + 1)))
    let acc2 ← acc.comp piece
    cupsGo x y k acc2

/-- Nested cups `rigidcat.Diagram.cups`: folds elementary cups from the
innermost wire pair outward over `Id(x @ y)`. -/
def Diagram.cups (x y : Ty) : Except Err Diagram :=
  cupsGo x y x.length (idD (x ++ y))

/-- Loop body of `rigidcat.Diagram.caps`; as in `cupsGo`, the counter `k`
counts the remaining iterations.  The source composes with `<<`, so each
piece is precomposed. -/
def capsGo (x y : Ty) : Nat → Diagram → Except Err Diagram
  | 0, acc => .ok acc
  | k + 1, acc => do
    let i := x.length - (k + 1)
    let j := x.length - i - 1
    let c ← Cap.make ((x.drop j).take 1) ((y.drop i).take 1)
    let piece := ((idD (x.take j)).tensor c).tensor (idD (y.drop (i + 1)))
    let acc2 ← piece.comp acc
    capsGo x y k acc2

/-- Nested caps `rigidcat.Diagram.caps`. -/
def Diagram.caps (x y : Ty) : Except Err Diagram :=
  capsGo x y x.length (idD (x ++ y))

/-- Right transpose `rigidcat.Diagram.transpose_r`:
`caps(dom.r, dom) @ Id(cod.r) >> Id(dom.r) @ self @ Id(cod.r)
>> Id(dom.r) @ cups(cod, cod.r)`. -/
def Diagram.transposeR (d : Diagram) : Except Err Diagram := do
  let cps ← Diagram.caps (tyR d.dom) d.dom
  let l1 := cps.tensor (idD (tyR d.cod))
  let l2 := ((idD (tyR d.dom)).tensor d).tensor (idD (tyR d.cod))
  let cup ← Diagram.cups d.cod (tyR d.cod)
  let l3 := (idD (tyR d.dom)).tensor cup
  let r12 ← l1.comp l2
  r12.comp l3

/-- Left transpose `rigidcat.Diagram.transpose_l`:
`Id(cod.l) @ caps(dom, dom.l) >> Id(cod.l) @ self @ Id(dom.l)
>> cups(cod.l, cod) @ Id(dom.l)`. -/
def Diagram.transposeL (d : Diagram) : Except Err Diagram := do
  let cps ← Diagram.caps d.dom (tyL d.dom)
  let l1 := (idD (tyL d.cod)).tensor cps
  let l2 := ((idD (tyL d.cod)).tensor d).tensor (idD (tyL d.dom))
  let cup ← Diagram.cups (tyL d.cod) d.cod
  let l3 := cup.tensor (idD (tyL d.dom))
  let r12 ← l1.comp l2
  r12.comp l3

/-- Modelled from the spec: the adjacent interchange of the absent monoidal
layer.  Two stacked boxes `b0 @ o0` then `b1 @ o1` are swapped when their
wire footprints do not overlap; the `left` flag picks which side is tried
first in the ambiguous case, matching the doctests of
`rigidcat.Diagram.interchange`.  `none` models the interchanger failure for
causally dependent boxes. -/
def interchangeAdjacent (b0 b1 : Box) (o0 o1 : Nat) (left : Bool) :
    Option ((Box × Nat) × (Box × Nat)) :=
  if left then
    if o0 + b0.cod.length ≤ o1 then
      some ((b1, o1 - b0.cod.length + b0.dom.length), (b0, o0))
    else if o1 + b1.dom.length ≤ o0 then
      some ((b1, o1), (b0, o0 - b1.dom.length + b1.cod.length))
    else none
  else
    if o1 + b1.dom.length ≤ o0 then
      some ((b1, o1), (b0, o0 - b1.dom.length + b1.cod.length))
    else if o0 + b0.cod.length ≤ o1 then
      some ((b1, o1 - b0.cod.length + b0.dom.length), (b0, o0))
    else none

/-- Swap of the boxes at positions `k` and `k + 1` of a diagram. -/
def adjSwap (d : Diagram) (k : Nat) (left : Bool) : Except Err Diagram :=
  match d.boxes[k]?, d.boxes[k + 1]?, d.offsets[k]?, d.offsets[k + 1]? with
  | some b0, some b1, some o0, some o1 =>
    match interchangeAdjacent b0 b1 o0 o1 left with
    | some ((c0, p0), (c1, p1)) =>
      .ok ⟨d.dom, d.cod, (d.boxes.set k c0).set (k + 1) c1,
        (d.offsets.set k p0).set (k + 1) p1⟩
    | none => .error .interchangerErr
  | _, _, _, _ => .error .indexErr

/-- Relocation of the box at position `i` upward by `n` adjacent swaps. -/
def interchangeUp (d : Diagram) (i : Nat) (left : Bool) :
    Nat → Except Err Diagram
  | 0 => .ok d
  | n + 1 =>
    match adjSwap d i left with
    | .error e => .error e
    | .ok d2 => interchangeUp d2 (i + 1) left n

/-- Relocation of the box at position `i` downward by `n` adjacent swaps. -/
def interchangeDown (d : Diagram) (i : Nat) (left : Bool) :
    Nat → Except Err Diagram
  | 0 => .ok d
  | n + 1 =>
    match adjSwap d (i - 1) left with
    | .error e => .error e
    | .ok d2 => interchangeDown d2 (i - 1) left n

/-- Modelled from the spec: `interchange(i, j, left)` of the absent monoidal
layer relocates the box at position `i` to position `j` through adjacent
swaps, shifting the intermediate boxes by one; this is the behaviour the
obstruction bookkeeping of `rigidcat.Diagram.normalize.move` relies on. -/
def Diagram.interchange (d : Diagram) (i j : Nat) (left : Bool := false) :
    Except Err Diagram :=
  if i < d.boxes.length ∧ j < d.boxes.length then
    if i ≤ j then interchangeUp d i left (j - i)
    else interchangeDown d i left (i - j)
  else .error .indexErr

/-- Wire following loop of `rigidcat.Diagram.normalize.follow_wire`; `fuel`
is the number of boxes still below the current one, so the call of the
source corresponds to `fuel = boxes.length - (i + 1)`.  Returns the index of
the box consuming the wire (or the length of the diagram for the bottom
boundary), the offset of the wire at its bottom end, and the left and right
obstruction lists. -/
def followWireGo (d : Diagram) : Nat → Nat → Nat → List Nat → List Nat →
    Nat × Nat × List Nat × List Nat
  | 0, _, j, lo, ro => (d.boxes.length, j, lo, ro)
  | fuel + 1, i, j, lo, ro =>
    match d.boxes[i + 1]?, d.offsets[i + 1]? with
    | some box, some off =>
      if off ≤ j ∧ j < off + box.dom.length then (i + 1, j, lo, ro)
      else if off ≤ j then
        followWireGo d fuel (i + 1) (j + box.cod.length - box.dom.length)
          (lo ++ [i + 1]) ro
      else followWireGo d fuel (i + 1) j lo (ro ++ [i + 1])
    | _, _ => (d.boxes.length, j, lo, ro)

/-- Wire following `rigidcat.Diagram.normalize.follow_wire`. -/
def followWire (d : Diagram) (i j : Nat) : Nat × Nat × List Nat × List Nat :=
  followWireGo d (d.boxes.length - (i + 1)) i j [] []

/-- Yankability test for one leg of a cap, mirroring the `not_yankable`
condition of `rigidcat.Diagram.normalize.find_move` (the left leg starts at
the cap's offset, the right leg one to its right). -/
def checkLeg (d : Diagram) (cap : Nat) (ls : Bool) (wire : Nat) :
    Option (Nat × Nat × List Nat × List Nat × Bool) :=
  match followWire d cap wire with
  | (cup, wire2, lo, ro) =>
    if cup = d.boxes.length then none
    else
      match d.boxes[cup]?, d.offsets[cup]? with
      | some cbox, some coff =>
        if cbox.kind ≠ BoxKind.cup then none
        else if ls then
          if coff + 1 = wire2 then some (cup, cap, lo, ro, ls) else none
        else
          if coff = wire2 then some (cup, cap, lo, ro, ls) else none
      | _, _ => none

/-- Scanning loop of `rigidcat.Diagram.normalize.find_move`: tries each box
in sequence order, and for each cap first its left leg then its right leg. -/
def findMoveGo (d : Diagram) : Nat → Nat →
    Option (Nat × Nat × List Nat × List Nat × Bool)
  | 0, _ => none
  | fuel + 1, cap =>
    match d.boxes[cap]?, d.offsets[cap]? with
    | some box, some off =>
      if box.kind = BoxKind.cap then
        match checkLeg d cap true off with
        | some mv => some mv
        | none =>
          match checkLeg d cap false (off + 1) with
          | some mv => some mv
          | none => findMoveGo d fuel (cap + 1)
      else findMoveGo d fuel (cap + 1)
    | _, _ => none

/-- Yankable pair search `rigidcat.Diagram.normalize.find_move`. -/
def findMove (d : Diagram) :
    Option (Nat × Nat × List Nat × List Nat × Bool) :=
  findMoveGo d d.boxes.length 0

/-- State threaded through the obstruction sweeps of
`rigidcat.Diagram.normalize.move`: the diagrams yielded so far, the current
diagram, the moving cap or cup index, the pending right obstructions and the
error, if an interchange failed. -/
structure MoveState where
  steps : List Diagram
  diag : Diagram
  idx : Nat
  ro : List Nat
  err : Option Err
deriving Repr

/-- First sweep of a left snake: each left obstruction is relocated to the
cap's position, the cap index is incremented and the smaller right
obstruction indices are shifted up. -/
def moveLoopLA (d : Diagram) (cap : Nat) (ro : List Nat) :
    List Nat → MoveState
  | [] => ⟨[], d, cap, ro, none⟩
  | box :: rest =>
    match d.interchange box cap with
    | .error e => ⟨[], d, cap, ro, some e⟩
    | .ok d2 =>
      let ro2 := ro.map (fun rb => if rb < box then rb + 1 else rb)
      let s := moveLoopLA d2 (cap + 1) ro2 rest
      ⟨d2 :: s.steps, s.diag, s.idx, s.ro, s.err⟩

/-- Second sweep of a left snake: the right obstructions, in reversed order,
are relocated to the cup's position, decrementing the cup index. -/
def moveLoopLB (d : Diagram) (cup : Nat) :
    List Nat → List Diagram × Diagram × Nat × Option Err
  | [] => ([], d, cup, none)
  | box :: rest =>
    match d.interchange box cup with
    | .error e => ([], d, cup, some e)
    | .ok d2 =>
      let s := moveLoopLB d2 (cup - 1) rest
      (d2 :: s.1, s.2)

/-- First sweep of a right snake: the left obstructions, in reversed order,
are relocated to the cup's position, decrementing the cup index and shifting
the larger right obstruction indices down. -/
def moveLoopRA (d : Diagram) (cup : Nat) (ro : List Nat) :
    List Nat → MoveState
  | [] => ⟨[], d, cup, ro, none⟩
  | box :: rest =>
    match d.interchange box cup with
    | .error e => ⟨[], d, cup, ro, some e⟩
    | .ok d2 =>
      let ro2 := ro.map (fun rb => if box < rb then rb - 1 else rb)
      let s := moveLoopRA d2 (cup - 1) ro2 rest
      ⟨d2 :: s.steps, s.diag, s.idx, s.ro, s.err⟩

/-- Second sweep of a right snake: the right obstructions are relocated to
the cap's position, incrementing the cap index. -/
def moveLoopRB (d : Diagram) (cap : Nat) :
    List Nat → List Diagram × Diagram × Nat × Option Err
  | [] => ([], d, cap, none)
  | box :: rest =>
    match d.interchange box cap with
    | .error e => ([], d, cap, some e)
    | .ok d2 =>
      let s := moveLoopRB d2 (cap + 1) rest
      (d2 :: s.1, s.2)

/-- Snake elimination `rigidcat.Diagram.normalize.move` as the list of
diagrams the Python generator yields; on success the reduced diagram with
the cup and cap deleted is the last element and is also returned apart. -/
def moveSteps (d : Diagram) (cup cap : Nat) (lo ro : List Nat) (ls : Bool) :
    List Diagram × Except Err Diagram :=
  if ls then
    let s1 := moveLoopLA d cap ro lo
    match s1.err with
    | some e => (s1.steps, .error e)
    | none =>
      match moveLoopLB s1.diag cup s1.ro.reverse with
      | (ys2, _, _, some e) => (s1.steps ++ ys2, .error e)
      | (ys2, d2, cup2, none) =>
        let fin : Diagram := ⟨d2.dom, d2.cod,
          d2.boxes.take s1.idx ++ d2.boxes.drop (cup2 + 1),
          d2.offsets.take s1.idx ++ d2.offsets.drop (cup2 + 1)⟩
        (s1.steps ++ ys2 ++ [fin], .ok fin)
  else
    let s1 := moveLoopRA d cup ro lo.reverse
    match s1.err with
    | some e => (s1.steps, .error e)
    | none =>
      match moveLoopRB s1.diag cap s1.ro with
      | (ys2, _, _, some e) => (s1.steps ++ ys2, .error e)
      | (ys2, d2, cap2, none) =>
        let fin : Diagram := ⟨d2.dom, d2.cod,
          d2.boxes.take cap2 ++ d2.boxes.drop (s1.idx + 1),
          d2.offsets.take cap2 ++ d2.offsets.drop (s1.idx + 1)⟩
        (s1.steps ++ ys2 ++ [fin], .ok fin)

/-- Outer loop of `rigidcat.Diagram.normalize`: repeat `find_move` and
`move` until no yankable pair remains; the explicit bound only guards the
recursion and is provably sufficient since every successful move deletes a
cup and a cap. -/
def normalizeSnake : Nat → Diagram → List Diagram × Option Err
  | 0, _ => ([], some .outOfFuel)
  | fuel + 1, d =>
    match findMove d with
    | none => ([], none)
    | some (cup, cap, lo, ro, ls) =>
      match moveSteps d cup cap lo ro ls with
      | (ys, .error e) => (ys, some e)
      | (ys, .ok fin) =>
        let s := normalizeSnake fuel fin
        (ys ++ s.1, s.2)

/-- Modelled from the spec: the generic monoidal normalizer
`moncat.Diagram.normalize` used as a fallback is an external collaborator
performing residual non-cup/cap simplification; it is modelled as
contributing no residual steps. -/
def moncatNormalize (_d : Diagram) (_left : Bool) : List Diagram :=
  []

/-- Normalization generator `rigidcat.Diagram.normalize`: the sequence of
diagrams yielded, with the error of an aborted run, if any. -/
def Diagram.normalize (d : Diagram) (left : Bool := false) :
    List Diagram × Option Err :=
  match normalizeSnake (d.boxes.length + 1) d with
  | (ys, some e) => (ys, some e)
  | (ys, none) =>
    (ys ++ moncatNormalize ((d :: ys).getLast (by simp)) left, none)

/-- Modelled from the spec: `normal_form` drains the normalization sequence
and returns only the last diagram (the input itself when nothing is
yielded). -/
def Diagram.normalForm (d : Diagram) (left : Bool := false) :
    Except Err Diagram :=
  match d.normalize left with
  | (_, some e) => .error e
  | (ys, none) => .ok ((d :: ys).getLast (by simp))

/-- C8: for all type sequences `x` and `y`, the left and right adjoints of a
tensor are the reversed tensors of the pointwise adjoints:
`(x @ y).l = y.l @ x.l` and `(x @ y).r = y.r @ x.r`. -/
theorem ty_adjoint_tensor_reverse (x y : Ty) :
    tyL (x ++ y) = tyL y ++ tyL x ∧ tyR (x ++ y) = tyR y ++ tyR x := by
  constructor <;> simp [tyL, tyR]

/-- C9: the equality test of a basic object returns `False` on any value
that is not a rigid adjoint object, never raises, and holds between two
adjoint objects exactly when both the name and the winding number
coincide. -/
theorem ob_eq_semantics (o : Ob) (v : PyVal) :
    obEqPy o v = true ↔
      ∃ o2 : Ob, v = PyVal.rigid o2 ∧ o.name = o2.name ∧ o.z = o2.z := by
  cases v <;> simp [obEqPy]

/-- C5: constructing `Cup(x, y)` with `x = right(y)` or `Cap(x, y)` with
`x = left(y)` on singleton types always fails with the Unsupported
(`NotImplementedError`) kind and never returns a diagram. -/
theorem cup_cap_pivotal_rejected (y : Ob) :
    Cup.make [y.r] [y] = .error .notImplementedErr ∧
    Cap.make [y.l] [y] = .error .notImplementedErr := by
  constructor
  · simp [Cup.make, tyR, Ob.rr_ne_self y]
  · simp [Cap.make, tyR, tyL, Ob.rr_ne_self, Ob.ll_ne_self y]

theorem Ob.self_ne_rr (o : Ob) : ¬ (o = o.r.r) := by
  cases o
  simp [Ob.r]
  omega

theorem Ob.self_ne_ll (o : Ob) : ¬ (o = o.l.l) := by
  cases o
  simp [Ob.l]
  omega

@[simp] theorem exBind_ok {α β : Type} (a : α) (f : α → Except Err β) :
    (Except.ok a : Except Err α) >>= f = f a := rfl

@[simp] theorem exBind_error {α β : Type} (e : Err) (f : α → Except Err β) :
    (Except.error e : Except Err α) >>= f = Except.error e := rfl

/-- Success test on the result of a fallible operation. -/
def isOkE (e : Except Err Diagram) : Bool :=
  match e with
  | .ok _ => true
  | .error _ => false

@[simp] theorem isOkE_ok (d : Diagram) : isOkE (.ok d) = true := rfl

@[simp] theorem isOkE_error (e : Err) : isOkE (.error e) = false := rfl

theorem cupMake_pair (u : Ob) :
    Cup.make [u] [u.r] =
      .ok (Box.asDiagram ⟨"Cup", [u, u.r], [], .cup, false⟩) := by
  simp [Cup.make, tyR, Ob.self_ne_rr u]

theorem cupMake_fail (u v : Ob) (h : ¬ (v = u.r)) :
    ∃ e, Cup.make [u] [v] = .error e := by
  by_cases h2 : u = v.r
  · exact ⟨.notImplementedErr, by simp [Cup.make, tyR, h2]⟩
  · have h3 : ¬ (u.r = v) := fun hh => h hh.symm
    exact ⟨.axiomErr, by simp [Cup.make, tyR, h2, h3]⟩

theorem cupMake_nil (u : Ob) : Cup.make [u] [] = .error .axiomErr := by
  simp [Cup.make, tyR]

theorem capMake_pair (u : Ob) :
    Cap.make [u] [u.l] =
      .ok (Box.asDiagram ⟨"Cap", [], [u, u.l], .cap, false⟩) := by
  simp [Cap.make, tyR, tyL, Ob.r_ne_l u]

theorem capMake_fail (u v : Ob) (h : ¬ (v = u.l)) :
    ∃ e, Cap.make [u] [v] = .error e := by
  by_cases h2 : u.r = v
  · exact ⟨.notImplementedErr, by simp [Cap.make, tyR, h2]⟩
  · by_cases h3 : u = v.r
    · exfalso
      apply h
      cases u
      cases v
      simp only [Ob.r, Ob.l, Ob.mk.injEq] at h3 ⊢
      constructor
      · exact h3.1.symm
      · omega
    · exact ⟨.axiomErr, by simp [Cap.make, tyR, h2, h3]⟩

theorem capMake_nil (u : Ob) : Cap.make [u] [] = .error .axiomErr := by
  simp [Cap.make, tyR]

theorem tyR_snoc (s : Ty) (u : Ob) : tyR (s ++ [u]) = u.r :: tyR s := by
  simp [tyR]

theorem tyL_snoc (s : Ty) (u : Ob) : tyL (s ++ [u]) = u.l :: tyL s := by
  simp [tyL]

theorem take_one_drop (l : List Ob) (n : Nat) (h : n < l.length) :
    (l.drop n).take 1 = [l[n]] := by
  rw [List.take_one_drop_eq_of_lt_length h]
  simp

theorem take_succ_getElem (l : List Ob) (n : Nat) (h : n < l.length) :
    l.take (n + 1) = l.take n ++ [l[n]] :=
  (List.take_concat_get' l n h).symm

theorem cupsGo_succ (x y : Ty) (k : Nat) (acc : Diagram)
    (hk : k + 1 ≤ x.length) :
    cupsGo x y (k + 1) acc = (do
      let c ← Cup.make ((x.drop k).take 1)
        ((y.drop (x.length - (k + 1))).take 1)
      let piece := ((idD (x.take k)).tensor c).tensor
        (idD (y.drop (x.length - k)))
      let acc2 ← acc.comp piece
      cupsGo x y k acc2) := by
  have hraw : cupsGo x y (k + 1) acc = (do
      let c ← Cup.make ((x.drop (x.length - (x.length - (k + 1)) - 1)).take 1)
        ((y.drop (x.length - (k + 1))).take 1)
      let piece := ((idD (x.take (x.length - (x.length - (k + 1)) - 1))).tensor
        c).tensor (idD (y.drop (x.length - (k + 1) + 1)))
      let acc2 ← acc.comp piece
      cupsGo x y k acc2) := rfl
  rw [hraw, show x.length - (x.length - (k + 1)) - 1 = k from by omega,
    show x.length - (k + 1) + 1 = x.length - k from by omega]

theorem capsGo_succ (x y : Ty) (k : Nat) (acc : Diagram)
    (hk : k + 1 ≤ x.length) :
    capsGo x y (k + 1) acc = (do
      let c ← Cap.make ((x.drop k).take 1)
        ((y.drop (x.length - (k + 1))).take 1)
      let piece := ((idD (x.take k)).tensor c).tensor
        (idD (y.drop (x.length - k)))
      let acc2 ← piece.comp acc
      capsGo x y k acc2) := by
  have hraw : capsGo x y (k + 1) acc = (do
      let c ← Cap.make ((x.drop (x.length - (x.length - (k + 1)) - 1)).take 1)
        ((y.drop (x.length - (k + 1))).take 1)
      let piece := ((idD (x.take (x.length - (x.length - (k + 1)) - 1))).tensor
        c).tensor (idD (y.drop (x.length - (k + 1) + 1)))
      let acc2 ← piece.comp acc
      capsGo x y k acc2) := rfl
  rw [hraw, show x.length - (x.length - (k + 1)) - 1 = k from by omega,
    show x.length - (k + 1) + 1 = x.length - k from by omega]

theorem take_cons_append (x : Ty) (k : Nat) (h : k < x.length) (rest : Ty) :
    x.take (k + 1) ++ rest = x.take k ++ x[k] :: rest := by
  rw [take_succ_getElem x k h, List.append_assoc]
  rfl

theorem cupsGo_ok_iff (x y : Ty) :
    ∀ (k : Nat) (acc : Diagram), k ≤ x.length →
      acc.cod = x.take k ++ y.drop (x.length - k) →
      (isOkE (cupsGo x y k acc) = true ↔
        (y.drop (x.length - k)).take k = tyR (x.take k)) := by
  intro k
  induction k with
  | zero =>
    intro acc _ _
    simp [cupsGo, tyR]
  | succ k ih =>
    intro acc hk hcod
    have hk' : k < x.length := hk
    rw [cupsGo_succ x y k acc hk, take_one_drop x k hk']
    by_cases hy : x.length - (k + 1) < y.length
    · rw [take_one_drop y _ hy]
      have hydrop : y.drop (x.length - (k + 1))
          = y[x.length - (k + 1)] :: y.drop (x.length - k) := by
        have h1 := List.drop_eq_getElem_cons hy
        rwa [show x.length - (k + 1) + 1 = x.length - k from by omega] at h1
      have hxtake := take_succ_getElem x k hk'
      by_cases hv : y[x.length - (k + 1)] = x[k].r
      · rw [hv, cupMake_pair, exBind_ok]
        have hpd : (((idD (x.take k)).tensor
            (Box.asDiagram ⟨"Cup", [x[k], x[k].r], [], BoxKind.cup,
              false⟩)).tensor (idD (y.drop (x.length - k)))).dom = acc.cod := by
          rw [hcod, hydrop, hv, take_cons_append x k hk']
          simp [Diagram.tensor, idD, Box.asDiagram]
        have hcomp : acc.comp (((idD (x.take k)).tensor
            (Box.asDiagram ⟨"Cup", [x[k], x[k].r], [], BoxKind.cup,
              false⟩)).tensor (idD (y.drop (x.length - k)))) = .ok
            ⟨acc.dom, x.take k ++ y.drop (x.length - k),
              acc.boxes ++ [⟨"Cup", [x[k], x[k].r], [], BoxKind.cup, false⟩],
              acc.offsets ++ [(x.take k).length]⟩ := by
          rw [Diagram.comp, if_pos hpd.symm]
          simp [Diagram.tensor, idD, Box.asDiagram]
        simp only [hcomp, exBind_ok]
        rw [ih _ (le_of_lt hk') (by simp)]
        rw [hydrop, hxtake, tyR_snoc]
        simp [hv]
      · obtain ⟨e, he⟩ := cupMake_fail (x[k]) (y[x.length - (k + 1)]) hv
        rw [he, exBind_error]
        simp only [isOkE_error, Bool.false_eq_true, false_iff]
        intro hlist
        rw [hydrop, hxtake, tyR_snoc] at hlist
        simp at hlist
        exact hv hlist.1
    · have hnil : y.drop (x.length - (k + 1)) = [] :=
        List.drop_eq_nil_of_le (by omega)
      rw [hnil]
      simp only [List.take_nil]
      rw [cupMake_nil, exBind_error]
      simp only [isOkE_error, Bool.false_eq_true, false_iff]
      intro hlist
      rw [take_succ_getElem x k hk', tyR_snoc] at hlist
      simp at hlist

theorem capsGo_ok_iff (x y : Ty) :
    ∀ (k : Nat) (acc : Diagram), k ≤ x.length →
      acc.dom = x.take k ++ y.drop (x.length - k) →
      (isOkE (capsGo x y k acc) = true ↔
        (y.drop (x.length - k)).take k = tyL (x.take k)) := by
  intro k
  induction k with
  | zero =>
    intro acc _ _
    simp [capsGo, tyL]
  | succ k ih =>
    intro acc hk hdom
    have hk' : k < x.length := hk
    rw [capsGo_succ x y k acc hk, take_one_drop x k hk']
    by_cases hy : x.length - (k + 1) < y.length
    · rw [take_one_drop y _ hy]
      have hydrop : y.drop (x.length - (k + 1))
          = y[x.length - (k + 1)] :: y.drop (x.length - k) := by
        have h1 := List.drop_eq_getElem_cons hy
        rwa [show x.length - (k + 1) + 1 = x.length - k from by omega] at h1
      have hxtake := take_succ_getElem x k hk'
      by_cases hv : y[x.length - (k + 1)] = x[k].l
      · rw [hv, capMake_pair, exBind_ok]
        have hpc : (((idD (x.take k)).tensor
            (Box.asDiagram ⟨"Cap", [], [x[k], x[k].l], BoxKind.cap,
              false⟩)).tensor (idD (y.drop (x.length - k)))).cod = acc.dom := by
          rw [hdom, hydrop, hv, take_cons_append x k hk']
          simp [Diagram.tensor, idD, Box.asDiagram]
        have hcomp : (((idD (x.take k)).tensor
            (Box.asDiagram ⟨"Cap", [], [x[k], x[k].l], BoxKind.cap,
              false⟩)).tensor (idD (y.drop (x.length - k)))).comp acc = .ok
            ⟨x.take k ++ y.drop (x.length - k), acc.cod,
              [(⟨"Cap", [], [x[k], x[k].l], BoxKind.cap, false⟩ : Box)]
                ++ acc.boxes,
              [(x.take k).length] ++ acc.offsets⟩ := by
          rw [Diagram.comp, if_pos hpc]
          simp [Diagram.tensor, idD, Box.asDiagram]
        simp only [hcomp, exBind_ok]
        rw [ih _ (le_of_lt hk') (by simp)]
        rw [hydrop, hxtake, tyL_snoc]
        simp [hv]
      · obtain ⟨e, he⟩ := capMake_fail (x[k]) (y[x.length - (k + 1)]) hv
        rw [he, exBind_error]
        simp only [isOkE_error, Bool.false_eq_true, false_iff]
        intro hlist
        rw [hydrop, hxtake, tyL_snoc] at hlist
        simp at hlist
        exact hv hlist.1
    · have hnil : y.drop (x.length - (k + 1)) = [] :=
        List.drop_eq_nil_of_le (by omega)
      rw [hnil]
      simp only [List.take_nil]
      rw [capMake_nil, exBind_error]
      simp only [isOkE_error, Bool.false_eq_true, false_iff]
      intro hlist
      rw [take_succ_getElem x k hk', tyL_snoc] at hlist
      simp at hlist

/-- C10 (amended): the staircase constructors succeed exactly when the
pointwise adjointness the elementary constructors enforce holds, namely
when the first `x.length` objects of `y` form `x.r` (for cups) or `x.l`
(for caps); extra trailing objects of `y` are tolerated, so success is not
equivalent to `y = x.r` (respectively `y = x.l`). -/
theorem cups_caps_ok_iff (x y : Ty) :
    (isOkE (Diagram.cups x y) = true ↔ y.take x.length = tyR x) ∧
    (isOkE (Diagram.caps x y) = true ↔ y.take x.length = tyL x) := by
  constructor
  · have h := cupsGo_ok_iff x y x.length (idD (x ++ y)) le_rfl
      (by simp [idD])
    simpa [idD] using h
  · have h := capsGo_ok_iff x y x.length (idD (x ++ y)) le_rfl
      (by simp [idD])
    simpa [idD] using h

/-- C10 (counterexample): `Diagram.cups(x, y)` can succeed although `y` is
not `x.r` - one extra trailing object is simply left untouched - so the
claimed equivalence fails in the only-if direction. -/
theorem cups_ok_beyond_adjoint :
    isOkE (Diagram.cups [⟨"a", 0⟩] [⟨"a", 1⟩, ⟨"b", 0⟩]) = true ∧
    ([⟨"a", 1⟩, ⟨"b", 0⟩] : Ty) ≠ tyR [⟨"a", 0⟩] := by
  constructor
  · rfl
  · decide

theorem adjSwap_pres {d : Diagram} {k : Nat} {l : Bool} {d2 : Diagram}
    (h : adjSwap d k l = .ok d2) : d2.dom = d.dom ∧ d2.cod = d.cod := by
  unfold adjSwap at h
  split at h
  · split at h
    · cases h
      exact ⟨rfl, rfl⟩
    · cases h
  · cases h

theorem interchangeUp_pres :
    ∀ (n : Nat) (d : Diagram) (i : Nat) (l : Bool) (d2 : Diagram),
      interchangeUp d i l n = .ok d2 → d2.dom = d.dom ∧ d2.cod = d.cod := by
  intro n
  induction n with
  | zero =>
    intro d i l d2 h
    cases h
    exact ⟨rfl, rfl⟩
  | succ n ih =>
    intro d i l d2 h
    unfold interchangeUp at h
    split at h
    · cases h
    · rename_i d3 heq
      obtain ⟨h1, h2⟩ := ih d3 (i + 1) l d2 h
      obtain ⟨h3, h4⟩ := adjSwap_pres heq
      exact ⟨h1.trans h3, h2.trans h4⟩

theorem interchangeDown_pres :
    ∀ (n : Nat) (d : Diagram) (i : Nat) (l : Bool) (d2 : Diagram),
      interchangeDown d i l n = .ok d2 → d2.dom = d.dom ∧ d2.cod = d.cod := by
  intro n
  induction n with
  | zero =>
    intro d i l d2 h
    cases h
    exact ⟨rfl, rfl⟩
  | succ n ih =>
    intro d i l d2 h
    unfold interchangeDown at h
    split at h
    · cases h
    · rename_i d3 heq
      obtain ⟨h1, h2⟩ := ih d3 (i - 1) l d2 h
      obtain ⟨h3, h4⟩ := adjSwap_pres heq
      exact ⟨h1.trans h3, h2.trans h4⟩

theorem interchange_pres {d : Diagram} {i j : Nat} {l : Bool} {d2 : Diagram}
    (h : d.interchange i j l = .ok d2) :
    d2.dom = d.dom ∧ d2.cod = d.cod := by
  unfold Diagram.interchange at h
  split at h
  · split at h
    · exact interchangeUp_pres _ _ _ _ _ h
    · exact interchangeDown_pres _ _ _ _ _ h
  · cases h

theorem moveLoopLA_pres :
    ∀ (items : List Nat) (d : Diagram) (cap : Nat) (ro : List Nat),
      (∀ x ∈ (moveLoopLA d cap ro items).steps,
        x.dom = d.dom ∧ x.cod = d.cod) ∧
      ((moveLoopLA d cap ro items).diag.dom = d.dom ∧
        (moveLoopLA d cap ro items).diag.cod = d.cod) := by
  intro items
  induction items with
  | nil =>
    intro d cap ro
    simp [moveLoopLA]
  | cons box rest ih =>
    intro d cap ro
    unfold moveLoopLA
    split
    · simp [moveLoopLA]
    · rename_i d3 heq
      obtain ⟨h3, h4⟩ := interchange_pres heq
      obtain ⟨ih1, ih2, ih3⟩ := ih d3 (cap + 1)
        (ro.map fun rb => if rb < box then rb + 1 else rb)
      constructor
      · intro x hx
        simp only [List.mem_cons] at hx
        rcases hx with hx | hx
        · subst hx
          exact ⟨h3, h4⟩
        · obtain ⟨g1, g2⟩ := ih1 x hx
          exact ⟨g1.trans h3, g2.trans h4⟩
      · exact ⟨ih2.trans h3, ih3.trans h4⟩

theorem moveLoopLB_pres :
    ∀ (items : List Nat) (d : Diagram) (cup : Nat),
      (∀ x ∈ (moveLoopLB d cup items).1,
        x.dom = d.dom ∧ x.cod = d.cod) ∧
      ((moveLoopLB d cup items).2.1.dom = d.dom ∧
        (moveLoopLB d cup items).2.1.cod = d.cod) := by
  intro items
  induction items with
  | nil =>
    intro d cup
    simp [moveLoopLB]
  | cons box rest ih =>
    intro d cup
    unfold moveLoopLB
    split
    · simp [moveLoopLB]
    · rename_i d3 heq
      obtain ⟨h3, h4⟩ := interchange_pres heq
      obtain ⟨ih1, ih2, ih3⟩ := ih d3 (cup - 1)
      constructor
      · intro x hx
        simp only [List.mem_cons] at hx
        rcases hx with hx | hx
        · subst hx
          exact ⟨h3, h4⟩
        · obtain ⟨g1, g2⟩ := ih1 x hx
          exact ⟨g1.trans h3, g2.trans h4⟩
      · exact ⟨ih2.trans h3, ih3.trans h4⟩

theorem moveLoopRA_pres :
    ∀ (items : List Nat) (d : Diagram) (cup : Nat) (ro : List Nat),
      (∀ x ∈ (moveLoopRA d cup ro items).steps,
        x.dom = d.dom ∧ x.cod = d.cod) ∧
      ((moveLoopRA d cup ro items).diag.dom = d.dom ∧
        (moveLoopRA d cup ro items).diag.cod = d.cod) := by
  intro items
  induction items with
  | nil =>
    intro d cup ro
    simp [moveLoopRA]
  | cons box rest ih =>
    intro d cup ro
    unfold moveLoopRA
    split
    · simp [moveLoopRA]
    · rename_i d3 heq
      obtain ⟨h3, h4⟩ := interchange_pres heq
      obtain ⟨ih1, ih2, ih3⟩ := ih d3 (cup - 1)
        (ro.map fun rb => if box < rb then rb - 1 else rb)
      constructor
      · intro x hx
        simp only [List.mem_cons] at hx
        rcases hx with hx | hx
        · subst hx
          exact ⟨h3, h4⟩
        · obtain ⟨g1, g2⟩ := ih1 x hx
          exact ⟨g1.trans h3, g2.trans h4⟩
      · exact ⟨ih2.trans h3, ih3.trans h4⟩

theorem moveLoopRB_pres :
    ∀ (items : List Nat) (d : Diagram) (cap : Nat),
      (∀ x ∈ (moveLoopRB d cap items).1,
        x.dom = d.dom ∧ x.cod = d.cod) ∧
      ((moveLoopRB d cap items).2.1.dom = d.dom ∧
        (moveLoopRB d cap items).2.1.cod = d.cod) := by
  intro items
  induction items with
  | nil =>
    intro d cap
    simp [moveLoopRB]
  | cons box rest ih =>
    intro d cap
    unfold moveLoopRB
    split
    · simp [moveLoopRB]
    · rename_i d3 heq
      obtain ⟨h3, h4⟩ := interchange_pres heq
      obtain ⟨ih1, ih2, ih3⟩ := ih d3 (cap + 1)
      constructor
      · intro x hx
        simp only [List.mem_cons] at hx
        rcases hx with hx | hx
        · subst hx
          exact ⟨h3, h4⟩
        · obtain ⟨g1, g2⟩ := ih1 x hx
          exact ⟨g1.trans h3, g2.trans h4⟩
      · exact ⟨ih2.trans h3, ih3.trans h4⟩

theorem moveSteps_pres (d : Diagram) (cup cap : Nat) (lo ro : List Nat)
    (ls : Bool) :
    (∀ x ∈ (moveSteps d cup cap lo ro ls).1, x.dom = d.dom ∧ x.cod = d.cod) ∧
    (∀ fin, (moveSteps d cup cap lo ro ls).2 = .ok fin →
      fin.dom = d.dom ∧ fin.cod = d.cod) := by
  simp only [moveSteps]
  split
  · obtain ⟨hA1, hA2, hA3⟩ := moveLoopLA_pres lo d cap ro
    split
    · exact ⟨fun x hx => hA1 x hx, fun fin hfin => by cases hfin⟩
    · obtain ⟨hB1, hB2, hB3⟩ := moveLoopLB_pres
        (moveLoopLA d cap ro lo).ro.reverse (moveLoopLA d cap ro lo).diag cup
      split
      · rename_i ys2 e heq
        rw [heq] at hB1
        refine ⟨?_, fun fin hfin => by cases hfin⟩
        intro x hx
        rcases List.mem_append.mp hx with hx | hx
        · exact hA1 x hx
        · obtain ⟨g1, g2⟩ := hB1 x hx
          exact ⟨g1.trans hA2, g2.trans hA3⟩
      · rename_i ys2 d2 cup2 heq
        rw [heq] at hB1 hB2 hB3
        simp only at hB1 hB2 hB3
        have hfin : (⟨d2.dom, d2.cod,
            d2.boxes.take (moveLoopLA d cap ro lo).idx ++
              d2.boxes.drop (cup2 + 1),
            d2.offsets.take (moveLoopLA d cap ro lo).idx ++
              d2.offsets.drop (cup2 + 1)⟩ : Diagram).dom = d.dom ∧
            (⟨d2.dom, d2.cod,
            d2.boxes.take (moveLoopLA d cap ro lo).idx ++
              d2.boxes.drop (cup2 + 1),
            d2.offsets.take (moveLoopLA d cap ro lo).idx ++
              d2.offsets.drop (cup2 + 1)⟩ : Diagram).cod = d.cod := by
          exact ⟨hB2.trans hA2, hB3.trans hA3⟩
        refine ⟨?_, ?_⟩
        · intro x hx
          rcases List.mem_append.mp hx with hx | hx
          · rcases List.mem_append.mp hx with hx | hx
            · exact hA1 x hx
            · obtain ⟨g1, g2⟩ := hB1 x hx
              exact ⟨g1.trans hA2, g2.trans hA3⟩
          · rcases List.mem_singleton.mp hx with rfl
            exact hfin
        · intro fin hfin2
          cases hfin2
          exact hfin
  · obtain ⟨hA1, hA2, hA3⟩ := moveLoopRA_pres lo.reverse d cup ro
    split
    · exact ⟨fun x hx => hA1 x hx, fun fin hfin => by cases hfin⟩
    · obtain ⟨hB1, hB2, hB3⟩ := moveLoopRB_pres
        (moveLoopRA d cup ro lo.reverse).ro (moveLoopRA d cup ro lo.reverse).diag
        cap
      split
      · rename_i ys2 e heq
        rw [heq] at hB1
        refine ⟨?_, fun fin hfin => by cases hfin⟩
        intro x hx
        rcases List.mem_append.mp hx with hx | hx
        · exact hA1 x hx
        · obtain ⟨g1, g2⟩ := hB1 x hx
          exact ⟨g1.trans hA2, g2.trans hA3⟩
      · rename_i ys2 d2 cap2 heq
        rw [heq] at hB1 hB2 hB3
        simp only at hB1 hB2 hB3
        have hfin : (⟨d2.dom, d2.cod,
            d2.boxes.take cap2 ++
              d2.boxes.drop ((moveLoopRA d cup ro lo.reverse).idx + 1),
            d2.offsets.take cap2 ++
              d2.offsets.drop ((moveLoopRA d cup ro lo.reverse).idx + 1)⟩ :
              Diagram).dom = d.dom ∧
            (⟨d2.dom, d2.cod,
            d2.boxes.take cap2 ++
              d2.boxes.drop ((moveLoopRA d cup ro lo.reverse).idx + 1),
            d2.offsets.take cap2 ++
              d2.offsets.drop ((moveLoopRA d cup ro lo.reverse).idx + 1)⟩ :
              Diagram).cod = d.cod := by
          exact ⟨hB2.trans hA2, hB3.trans hA3⟩
        refine ⟨?_, ?_⟩
        · intro x hx
          rcases List.mem_append.mp hx with hx | hx
          · rcases List.mem_append.mp hx with hx | hx
            · exact hA1 x hx
            · obtain ⟨g1, g2⟩ := hB1 x hx
              exact ⟨g1.trans hA2, g2.trans hA3⟩
          · rcases List.mem_singleton.mp hx with rfl
            exact hfin
        · intro fin hfin2
          cases hfin2
          exact hfin

theorem normalizeSnake_pres :
    ∀ (fuel : Nat) (d x : Diagram), x ∈ (normalizeSnake fuel d).1 →
      x.dom = d.dom ∧ x.cod = d.cod := by
  intro fuel
  induction fuel with
  | zero =>
    intro d x hx
    simp [normalizeSnake] at hx
  | succ fuel ih =>
    intro d x hx
    simp only [normalizeSnake] at hx
    split at hx
    · simp at hx
    · rename_i cup cap lo ro ls hfm
      split at hx
      · rename_i ys e heq
        have h := (moveSteps_pres d cup cap lo ro ls).1 x
        rw [heq] at h
        exact h hx
      · rename_i ys fin heq
        simp only at hx
        rcases List.mem_append.mp hx with hx | hx
        · have h := (moveSteps_pres d cup cap lo ro ls).1 x
          rw [heq] at h
          exact h hx
        · have hf := (moveSteps_pres d cup cap lo ro ls).2 fin
          rw [heq] at hf
          obtain ⟨g1, g2⟩ := hf rfl
          obtain ⟨g3, g4⟩ := ih fin x hx
          exact ⟨g3.trans g1, g4.trans g2⟩

/-- C2: every diagram the normalization generator yields - the
intermediates produced by interchanges as well as the diagrams produced
when a cup/cap pair is deleted - has the same domain and codomain as the
input diagram. -/
theorem normalize_preserves_dom_cod (left : Bool) (d x : Diagram)
    (hx : x ∈ (d.normalize left).1) : x.dom = d.dom ∧ x.cod = d.cod := by
  unfold Diagram.normalize at hx
  split at hx
  · rename_i ys e heq
    have h := normalizeSnake_pres (d.boxes.length + 1) d x
    rw [heq] at h
    exact h hx
  · rename_i ys heq
    simp only [moncatNormalize, List.append_nil] at hx
    have h := normalizeSnake_pres (d.boxes.length + 1) d x
    rw [heq] at h
    exact h hx

/-- C2 (witness): instantiation of the invariant on the right snake over
the basic type `w` and the one diagram its normalization yields. -/
theorem normalize_preserves_dom_cod_witness :
    (idD [(⟨"w", 0⟩ : Ob)]).dom = (⟨[⟨"w", 0⟩], [⟨"w", 0⟩],
      [⟨"Cap", [], [⟨"w", 1⟩, ⟨"w", 0⟩], .cap, false⟩,
        ⟨"Cup", [⟨"w", 0⟩, ⟨"w", 1⟩], [], .cup, false⟩],
      [1, 0]⟩ : Diagram).dom ∧
    (idD [(⟨"w", 0⟩ : Ob)]).cod = (⟨[⟨"w", 0⟩], [⟨"w", 0⟩],
      [⟨"Cap", [], [⟨"w", 1⟩, ⟨"w", 0⟩], .cap, false⟩,
        ⟨"Cup", [⟨"w", 0⟩, ⟨"w", 1⟩], [], .cup, false⟩],
      [1, 0]⟩ : Diagram).cod :=
  normalize_preserves_dom_cod false _ _ (by decide)

theorem transposeL_snake (o : Ob) :
    (idD (tyR [o])).transposeL = .ok ⟨[o], [o],
      [⟨"Cap", [], [o.r, o], .cap, false⟩,
        ⟨"Cup", [o, o.r], [], .cup, false⟩], [1, 0]⟩ := by
  simp [Diagram.transposeL, Diagram.caps, capsGo, Diagram.cups, cupsGo,
    Cap.make, Cup.make, idD, Box.asDiagram, Diagram.tensor, Diagram.comp,
    tyL, tyR, Ob.r_ne_l, Ob.l_ne_r, Ob.self_ne_rr, Ob.self_ne_ll,
    Ob.rr_ne_self, Ob.ll_ne_self]

theorem transposeR_snake (o : Ob) :
    (idD (tyL [o])).transposeR = .ok ⟨[o], [o],
      [⟨"Cap", [], [o, o.l], .cap, false⟩,
        ⟨"Cup", [o.l, o], [], .cup, false⟩], [0, 1]⟩ := by
  simp [Diagram.transposeR, Diagram.caps, capsGo, Diagram.cups, cupsGo,
    Cap.make, Cup.make, idD, Box.asDiagram, Diagram.tensor, Diagram.comp,
    tyL, tyR, Ob.r_ne_l, Ob.l_ne_r, Ob.self_ne_rr, Ob.self_ne_ll,
    Ob.rr_ne_self, Ob.ll_ne_self]

theorem snakeL_nf (o : Ob) :
    Diagram.normalForm ⟨[o], [o],
      [⟨"Cap", [], [o.r, o], .cap, false⟩,
        ⟨"Cup", [o, o.r], [], .cup, false⟩], [1, 0]⟩ = .ok (idD [o]) := rfl

theorem snakeR_nf (o : Ob) :
    Diagram.normalForm ⟨[o], [o],
      [⟨"Cap", [], [o, o.l], .cap, false⟩,
        ⟨"Cup", [o.l, o], [], .cup, false⟩], [0, 1]⟩ = .ok (idD [o]) := rfl

/-- C3: for every simple type `n`, the left snake `transpose_l(Id(n.r))`
and the right snake `transpose_r(Id(n.l))` both have normal form `Id(n)`. -/
theorem snake_transposes_normalize_to_id (o : Ob) :
    ((idD (tyR [o])).transposeL >>= fun s => s.normalForm) = .ok (idD [o]) ∧
    ((idD (tyL [o])).transposeR >>= fun s => s.normalForm) = .ok (idD [o]) := by
  constructor
  · rw [transposeL_snake o, exBind_ok, snakeL_nf]
  · rw [transposeR_snake o, exBind_ok, snakeR_nf]

theorem transposeR_pair (a b : Ob) :
    (idD [a, b]).transposeR = .ok ⟨[b.r, a.r], [b.r, a.r],
      [⟨"Cap", [], [b.r, b], .cap, false⟩,
        ⟨"Cap", [], [a.r, a], .cap, false⟩,
        ⟨"Cup", [b, b.r], [], .cup, false⟩,
        ⟨"Cup", [a, a.r], [], .cup, false⟩], [0, 1, 3, 2]⟩ := by
  simp [Diagram.transposeR, Diagram.caps, capsGo, Diagram.cups, cupsGo,
    Cap.make, Cup.make, idD, Box.asDiagram, Diagram.tensor, Diagram.comp,
    tyL, tyR, Ob.r_ne_l, Ob.l_ne_r, Ob.self_ne_rr, Ob.self_ne_ll,
    Ob.rr_ne_self, Ob.ll_ne_self]

theorem transposeR_single (x : Ob) :
    (idD [x]).transposeR = .ok ⟨[x.r], [x.r],
      [⟨"Cap", [], [x.r, x], .cap, false⟩,
        ⟨"Cup", [x, x.r], [], .cup, false⟩], [0, 1]⟩ := by
  simp [Diagram.transposeR, Diagram.caps, capsGo, Diagram.cups, cupsGo,
    Cap.make, Cup.make, idD, Box.asDiagram, Diagram.tensor, Diagram.comp,
    tyL, tyR, Ob.r_ne_l, Ob.l_ne_r, Ob.self_ne_rr, Ob.self_ne_ll,
    Ob.rr_ne_self, Ob.ll_ne_self]

theorem twoSnakes_tensor (a b : Ob) :
    (do
      let t1 ← (idD [b]).transposeR
      let t2 ← (idD [a]).transposeR
      pure (t1.tensor t2) : Except Err Diagram) = .ok ⟨[b.r, a.r],
        [b.r, a.r],
      [⟨"Cap", [], [b.r, b], .cap, false⟩,
        ⟨"Cup", [b, b.r], [], .cup, false⟩,
        ⟨"Cap", [], [a.r, a], .cap, false⟩,
        ⟨"Cup", [a, a.r], [], .cup, false⟩], [0, 1, 1, 2]⟩ := by
  rw [transposeR_single b, exBind_ok, transposeR_single a, exBind_ok]
  rfl

set_option maxHeartbeats 2000000 in
theorem pairSnake_nf (a b : Ob) :
    Diagram.normalForm ⟨[b.r, a.r], [b.r, a.r],
      [⟨"Cap", [], [b.r, b], .cap, false⟩,
        ⟨"Cap", [], [a.r, a], .cap, false⟩,
        ⟨"Cup", [b, b.r], [], .cup, false⟩,
        ⟨"Cup", [a, a.r], [], .cup, false⟩], [0, 1, 3, 2]⟩ =
      .ok (idD [b.r, a.r]) := rfl

set_option maxHeartbeats 2000000 in
theorem twoSnakes_nf (a b : Ob) :
    Diagram.normalForm ⟨[b.r, a.r], [b.r, a.r],
      [⟨"Cap", [], [b.r, b], .cap, false⟩,
        ⟨"Cup", [b, b.r], [], .cup, false⟩,
        ⟨"Cap", [], [a.r, a], .cap, false⟩,
        ⟨"Cup", [a, a.r], [], .cup, false⟩], [0, 1, 1, 2]⟩ =
      .ok (idD [b.r, a.r]) := rfl

/-- C7: for all simple types `a` and `b`, `transpose_r(Id(a @ b))` is not
structurally equal to `transpose_r(Id(b)) @ transpose_r(Id(a))`, but both
normalize to the same normal form, the identity on `(a @ b).r`. -/
theorem transpose_tensor_structural_vs_nf (a b : Ob) :
    ((idD [a, b]).transposeR ≠ (do
      let t1 ← (idD [b]).transposeR
      let t2 ← (idD [a]).transposeR
      pure (t1.tensor t2) : Except Err Diagram)) ∧
    ((idD [a, b]).transposeR >>= fun s => s.normalForm) =
      .ok (idD (tyR [a, b])) ∧
    ((do
      let t1 ← (idD [b]).transposeR
      let t2 ← (idD [a]).transposeR
      pure (t1.tensor t2) : Except Err Diagram) >>= fun s => s.normalForm) =
      .ok (idD (tyR [a, b])) := by
  refine ⟨?_, ?_, ?_⟩
  · rw [transposeR_pair, twoSnakes_tensor]
    simp
  · rw [transposeR_pair, exBind_ok, pairSnake_nf]
    rfl
  · rw [twoSnakes_tensor, exBind_ok, twoSnakes_nf]
    rfl

/-- Rigid functor (`rigidcat.RigidFunctor`): an object mapping keyed by the
one-object type of a base name, as the source looks it up with
`self.ob[Ty(diagram.name)]`, and an arrow mapping from boxes to diagrams.
Both Python dicts are modelled as association lists. -/
structure RigidFunctor where
  ob : List (Ty × Ty)
  ar : List (Box × Diagram)

/-- Lookup in an association list, modelling a Python dict access that
raises `KeyError` when the key is missing. -/
def dictFind {α β : Type} [DecidableEq α] (m : List (α × β)) (k : α) :
    Except Err β :=
  match m with
  | [] => .error .keyErr
  | (k2, v) :: rest => if k2 = k then .ok v else dictFind rest k

/-- Winding loop of `RigidFunctor.__call__` on an object: apply `l` or `r`
to the image `|z|` times in the sign direction. -/
def iterAdj (t : Ty) (z : Int) : Ty :=
  if z < 0 then tyL^[(-z).toNat] t else tyR^[z.toNat] t

/-- Action of a functor on a simple object (`RigidFunctor.__call__`, `Ob`
branch): look up the type of the base name, then wind the image. -/
def RigidFunctor.onOb (F : RigidFunctor) (o : Ob) : Except Err Ty := do
  let t ← dictFind F.ob [⟨o.name, 0⟩]
  pure (iterAdj t o.z)

/-- Action of a functor on a type (`RigidFunctor.__call__`, `Ty` branch):
the concatenated images of the components in original order. -/
def RigidFunctor.onTy (F : RigidFunctor) (t : Ty) : Except Err Ty :=
  t.foldlM (fun acc o => do pure (acc ++ (← F.onOb o))) []

/-- Action of a functor on one box: a cup or cap is rebuilt through
`cups`/`caps` on the images of its wire types - never through the arrow
mapping - while a generic box is looked up in the arrow mapping (the `Box`
branch of the monoidal layer, a `KeyError` when absent). -/
def RigidFunctor.onBox (F : RigidFunctor) (b : Box) : Except Err Diagram :=
  match b.kind with
  | .cup =>
    match b.dom[0]?, b.dom[1]? with
    | some x0, some y0 => do
      Diagram.cups (← F.onOb x0) (← F.onOb y0)
    | _, _ => .error .indexErr
  | .cap =>
    match b.cod[0]?, b.cod[1]? with
    | some x0, some y0 => do
      Diagram.caps (← F.onOb x0) (← F.onOb y0)
    | _, _ => .error .indexErr
  | .generic => dictFind F.ar b

/-- Modelled from the spec: the monoidal functor fold of the absent
`moncat.MonoidalFunctor.__call__` - compose the images of the boxes
following the inherited rule, padding each with identities on the untouched
wires of the running scan type. -/
def functorFold (F : RigidFunctor) :
    Ty → Diagram → List Box → List Nat → Except Err Diagram
  | _, acc, [], _ => .ok acc
  | _, acc, _ :: _, [] => .ok acc
  | scan, acc, b :: bs, off :: offs => do
    let lft ← F.onTy (scan.take off)
    let fb ← F.onBox b
    let rgt ← F.onTy (scan.drop (off + b.dom.length))
    let acc2 ← acc.comp (((idD lft).tensor fb).tensor (idD rgt))
    functorFold F (scan.take off ++ b.cod ++ scan.drop (off + b.dom.length))
      acc2 bs offs

/-- Functor application to a diagram (`RigidFunctor.__call__`): cup, cap
and box instances are dispatched before the generic diagram fold, as by the
isinstance tests of the source. -/
def RigidFunctor.applyD (F : RigidFunctor) (d : Diagram) :
    Except Err Diagram :=
  match d.boxes with
  | [b] =>
    if d = b.asDiagram then F.onBox b
    else do
      let td ← F.onTy d.dom
      functorFold F d.dom (idD td) d.boxes d.offsets
  | _ => do
    let td ← F.onTy d.dom
    functorFold F d.dom (idD td) d.boxes d.offsets

theorem dictFind_error_keyErr {α β : Type} [DecidableEq α] :
    ∀ (m : List (α × β)) (k : α) (e : Err),
      dictFind m k = .error e → e = .keyErr := by
  intro m
  induction m with
  | nil =>
    intro k e h
    cases h
    rfl
  | cons p rest ih =>
    intro k e h
    unfold dictFind at h
    split at h
    · cases h
    · exact ih k e h

theorem dictFind_ok_mem {α β : Type} [DecidableEq α] :
    ∀ (m : List (α × β)) (k : α) (v : β),
      dictFind m k = .ok v → ∃ p ∈ m, p.1 = k := by
  intro m
  induction m with
  | nil =>
    intro k v h
    cases h
  | cons p rest ih =>
    intro k v h
    unfold dictFind at h
    split at h
    · rename_i heq
      exact ⟨p, List.mem_cons_self p rest, heq⟩
    · obtain ⟨q, hq, hqk⟩ := ih k v h
      exact ⟨q, List.mem_cons_of_mem p hq, hqk⟩

theorem foldTy_miss (F : RigidFunctor) :
    ∀ (t : Ty) (acc : Ty),
      (∃ o ∈ t, ∀ p ∈ F.ob, p.1 ≠ [(⟨o.name, 0⟩ : Ob)]) →
      t.foldlM (fun acc o => do pure (acc ++ (← F.onOb o))) acc =
        .error .keyErr := by
  intro t
  induction t with
  | nil =>
    intro acc h
    obtain ⟨o, ho, _⟩ := h
    cases ho
  | cons o0 rest ih =>
    intro acc h
    rw [List.foldlM_cons]
    match hfind : dictFind F.ob [(⟨o0.name, 0⟩ : Ob)] with
    | .error e =>
      have he : e = .keyErr := dictFind_error_keyErr _ _ _ hfind
      subst he
      simp [RigidFunctor.onOb, hfind]
    | .ok t0 =>
      obtain ⟨o, ho, hall⟩ := h
      rcases List.mem_cons.mp ho with rfl | ho
      · exfalso
        obtain ⟨p, hp, hpk⟩ := dictFind_ok_mem _ _ _ hfind
        exact hall p hp hpk
      · simp only [RigidFunctor.onOb, hfind, exBind_ok]
        exact ih _ ⟨o, ho, hall⟩

/-- C4 (amended): applying a rigid functor to a type or an identity diagram
that mentions an object whose base name is absent from the object mapping
fails with the missing-key (`KeyError`) kind of error. -/
theorem functor_missing_ob_fails_keyErr (F : RigidFunctor) (t : Ty)
    (h : ∃ o ∈ t, ∀ p ∈ F.ob, p.1 ≠ [(⟨o.name, 0⟩ : Ob)]) :
    F.onTy t = .error .keyErr ∧ F.applyD (idD t) = .error .keyErr := by
  have h1 : F.onTy t = .error .keyErr := foldTy_miss F t [] h
  refine ⟨h1, ?_⟩
  unfold RigidFunctor.applyD
  simp [idD, h1]

/-- C4 (counterexample): the empty functor applied to `Id(Ty('x'))` fails
with a `KeyError`, which is not the `TypeMismatch` (`AxiomError`) kind the
claim names. -/
theorem functor_missing_ob_key_error :
    RigidFunctor.applyD ⟨[], []⟩ (idD [⟨"x", 0⟩]) = .error .keyErr ∧
    Err.keyErr ≠ Err.axiomErr := by
  constructor
  · rfl
  · decide

/-- C4 (witness): instantiation of the amended claim at the empty functor
and the type of the basic object `x`. -/
theorem functor_missing_ob_fails_keyErr_witness :
    RigidFunctor.onTy ⟨[], []⟩ [(⟨"x", 0⟩ : Ob)] = .error .keyErr ∧
    RigidFunctor.applyD ⟨[], []⟩ (idD [(⟨"x", 0⟩ : Ob)]) =
      .error .keyErr :=
  functor_missing_ob_fails_keyErr ⟨[], []⟩ [⟨"x", 0⟩]
    ⟨⟨"x", 0⟩, by decide, by simp⟩

theorem onTy_single (F : RigidFunctor) (o : Ob) : F.onTy [o] = F.onOb o := by
  unfold RigidFunctor.onTy
  rw [List.foldlM_cons]
  match hfind : F.onOb o with
  | .error e => simp [hfind]
  | .ok t0 => simp [hfind]

theorem cupMake_ok_shape (x y : Ty) (cd : Diagram)
    (h : Cup.make x y = .ok cd) :
    cd = Box.asDiagram ⟨"Cup", x ++ y, [], .cup, false⟩ := by
  unfold Cup.make at h
  split at h
  · cases h
  · split at h
    · cases h
    · split at h
      · cases h
      · cases h
        rfl

theorem capMake_ok_shape (x y : Ty) (cd : Diagram)
    (h : Cap.make x y = .ok cd) :
    cd = Box.asDiagram ⟨"Cap", [], x ++ y, .cap, false⟩ := by
  unfold Cap.make at h
  split at h
  · cases h
  · split at h
    · cases h
    · split at h
      · cases h
      · cases h
        rfl

/-- C6: a rigid functor sends `Cup(a, b)` to `cups(F(a), F(b))` and
`Cap(a, b)` to `caps(F(a), F(b))`, computed from the images of the
component types; the arrow mapping plays no role (it is universally
quantified here and never consulted). -/
theorem functor_preserves_cups_caps (obm : List (Ty × Ty))
    (arm : List (Box × Diagram)) (a b : Ob) (ta tb : Ty)
    (ha : RigidFunctor.onTy ⟨obm, arm⟩ [a] = .ok ta)
    (hb : RigidFunctor.onTy ⟨obm, arm⟩ [b] = .ok tb) :
    (∀ cd, Cup.make [a] [b] = .ok cd →
      RigidFunctor.applyD ⟨obm, arm⟩ cd = Diagram.cups ta tb) ∧
    (∀ cd, Cap.make [a] [b] = .ok cd →
      RigidFunctor.applyD ⟨obm, arm⟩ cd = Diagram.caps ta tb) := by
  rw [onTy_single] at ha hb
  constructor
  · intro cd hcd
    have hshape := cupMake_ok_shape _ _ _ hcd
    subst hshape
    unfold RigidFunctor.applyD
    simp only [Box.asDiagram, if_pos rfl]
    unfold RigidFunctor.onBox
    simp [ha, hb]
  · intro cd hcd
    have hshape := capMake_ok_shape _ _ _ hcd
    subst hshape
    unfold RigidFunctor.applyD
    simp only [Box.asDiagram, if_pos rfl]
    unfold RigidFunctor.onBox
    simp [ha, hb]

/-- C6 (witness): the functor sending `x` to `y` on the cup over `x` and
its right adjoint. -/
theorem functor_preserves_cups_caps_witness :
    RigidFunctor.applyD ⟨[([⟨"x", 0⟩], [⟨"y", 0⟩])], []⟩
        (Box.asDiagram ⟨"Cup", [⟨"x", 0⟩, ⟨"x", 1⟩], [], .cup, false⟩) =
      Diagram.cups [⟨"y", 0⟩] [⟨"y", 1⟩] :=
  (functor_preserves_cups_caps [([⟨"x", 0⟩], [⟨"y", 0⟩])] [] ⟨"x", 0⟩
    ⟨"x", 1⟩ [⟨"y", 0⟩] [⟨"y", 1⟩] rfl rfl).1 _ rfl

/-- Shape facts about the cup and cap boxes built by the constructors: a
diagram of the free rigid category only contains cups over a pair of wires
with empty output and caps producing a pair of wires from no input. -/
def goodBoxes (d : Diagram) : Prop :=
  ∀ b ∈ d.boxes,
    (b.kind = BoxKind.cup → b.dom.length = 2 ∧ b.cod = []) ∧
    (b.kind = BoxKind.cap → b.dom = [] ∧ b.cod.length = 2)

/-- Wire threading relation: starting below the box at index `i` at wire
offset `j`, the wire passes the boxes of the layers in between - collecting
the left and right obstructions - and is consumed by the box at index `t`,
arriving there at offset `w2`.  This is the graph of `follow_wire` for runs
that terminate at a box. -/
inductive Thread (d : Diagram) : Nat → Nat → Nat → Nat → List Nat → List Nat → Prop where
  | term (i j : Nat) (box : Box) (off : Nat) :
      d.boxes[i + 1]? = some box → d.offsets[i + 1]? = some off →
      off ≤ j → j < off + box.dom.length →
      Thread d i j (i + 1) j [] []
  | passLeft (i j t w2 : Nat) (lo ro : List Nat) (box : Box) (off : Nat) :
      d.boxes[i + 1]? = some box → d.offsets[i + 1]? = some off →
      off ≤ j → off + box.dom.length ≤ j →
      Thread d (i + 1) (j + box.cod.length - box.dom.length) t w2 lo ro →
      Thread d i j t w2 ((i + 1) :: lo) ro
  | passRight (i j t w2 : Nat) (lo ro : List Nat) (box : Box) (off : Nat) :
      d.boxes[i + 1]? = some box → d.offsets[i + 1]? = some off →
      j < off →
      Thread d (i + 1) j t w2 lo ro →
      Thread d i j t w2 lo ((i + 1) :: ro)

theorem followWireGo_le (d : Diagram) :
    ∀ (fuel i j : Nat) (lo ro : List Nat),
      (followWireGo d fuel i j lo ro).1 ≤ d.boxes.length := by
  intro fuel
  induction fuel with
  | zero => intro i j lo ro; simp [followWireGo]
  | succ fuel ih =>
    intro i j lo ro
    unfold followWireGo
    split
    · split
      · rename_i box off hbox hoff hcov
        obtain ⟨hlt, -⟩ := List.getElem?_eq_some_iff.mp hbox
        exact Nat.le_of_lt hlt
      · split
        · exact ih _ _ _ _
        · exact ih _ _ _ _
    · simp

theorem followWireGo_sound (d : Diagram) :
    ∀ (fuel i j : Nat) (lo0 ro0 : List Nat) (t w2 : Nat) (lo ro : List Nat),
      followWireGo d fuel i j lo0 ro0 = (t, w2, lo, ro) →
      t < d.boxes.length →
      ∃ lo2 ro2, lo = lo0 ++ lo2 ∧ ro = ro0 ++ ro2 ∧
        Thread d i j t w2 lo2 ro2 := by
  intro fuel
  induction fuel with
  | zero =>
    intro i j lo0 ro0 t w2 lo ro h ht
    simp [followWireGo] at h
    omega
  | succ fuel ih =>
    intro i j lo0 ro0 t w2 lo ro h ht
    unfold followWireGo at h
    split at h
    · rename_i box off hbox hoff
      split at h
      · rename_i hcov
        cases h
        exact ⟨[], [], by simp, by simp,
          Thread.term i j box off hbox hoff hcov.1 hcov.2⟩
      · rename_i hncov
        split at h
        · rename_i hle
          obtain ⟨lo2, ro2, h1, h2, h3⟩ := ih _ _ _ _ _ _ _ _ h ht
          refine ⟨(i + 1) :: lo2, ro2, ?_, h2, ?_⟩
          · rw [h1]
            simp
          · exact Thread.passLeft i j t w2 lo2 ro2 box off hbox hoff hle
              (by omega) h3
        · rename_i hgt
          obtain ⟨lo2, ro2, h1, h2, h3⟩ := ih _ _ _ _ _ _ _ _ h ht
          refine ⟨lo2, (i + 1) :: ro2, h1, ?_, ?_⟩
          · rw [h2]
            simp
          · exact Thread.passRight i j t w2 lo2 ro2 box off hbox hoff
              (by omega) h3
    · cases h
      omega

theorem Thread.bounds {d : Diagram} {i j t w2 : Nat} {lo ro : List Nat}
    (h : Thread d i j t w2 lo ro) :
    i < t ∧ t < d.boxes.length ∧ (∀ k ∈ lo, i < k ∧ k < t) ∧
      (∀ k ∈ ro, i < k ∧ k < t) := by
  induction h with
  | term i j box off hbox hoff h1 h2 =>
    obtain ⟨hlt, -⟩ := List.getElem?_eq_some_iff.mp hbox
    exact ⟨by omega, hlt, by simp, by simp⟩
  | passLeft i j t w2 lo ro box off hbox hoff h1 h2 hrec ih =>
    obtain ⟨g1, g2, g3, g4⟩ := ih
    refine ⟨by omega, g2, ?_, ?_⟩
    · intro k hk
      rcases List.mem_cons.mp hk with rfl | hk
      · omega
      · have := g3 k hk
        omega
    · intro k hk
      have := g4 k hk
      omega
  | passRight i j t w2 lo ro box off hbox hoff h1 hrec ih =>
    obtain ⟨g1, g2, g3, g4⟩ := ih
    refine ⟨by omega, g2, ?_, ?_⟩
    · intro k hk
      have := g3 k hk
      omega
    · intro k hk
      rcases List.mem_cons.mp hk with rfl | hk
      · omega
      · have := g4 k hk
        omega

theorem Thread.transport {d d2 : Diagram} {i j t w2 : Nat}
    {lo ro : List Nat} (h : Thread d i j t w2 lo ro)
    (hag : ∀ k, i < k → k ≤ t →
      d2.boxes[k]? = d.boxes[k]? ∧ d2.offsets[k]? = d.offsets[k]?) :
    Thread d2 i j t w2 lo ro := by
  induction h with
  | term i j box off hbox hoff h1 h2 =>
    obtain ⟨hb, ho⟩ := hag (i + 1) (by omega) (by omega)
    exact Thread.term i j box off (hb.trans hbox) (ho.trans hoff) h1 h2
  | passLeft i j t w2 lo ro box off hbox hoff h1 h2 hrec ih =>
    have hit : i + 1 < t := hrec.bounds.1
    obtain ⟨hb, ho⟩ := hag (i + 1) (by omega) (by omega)
    exact Thread.passLeft i j t w2 lo ro box off (hb.trans hbox)
      (ho.trans hoff) h1 h2
      (ih (fun k hk1 hk2 => hag k (by omega) hk2))
  | passRight i j t w2 lo ro box off hbox hoff h1 hrec ih =>
    have hit : i + 1 < t := hrec.bounds.1
    obtain ⟨hb, ho⟩ := hag (i + 1) (by omega) (by omega)
    exact Thread.passRight i j t w2 lo ro box off (hb.trans hbox)
      (ho.trans hoff) h1
      (ih (fun k hk1 hk2 => hag k (by omega) hk2))

theorem Thread.no_left_range {d : Diagram} {i j t w2 : Nat}
    {ro : List Nat} (h : Thread d i j t w2 [] ro) :
    ro = List.range' (i + 1) (t - i - 1) ∧ w2 = j := by
  generalize hlo : ([] : List Nat) = lo at h
  induction h with
  | term i j box off hbox hoff h1 h2 =>
    constructor
    · have : i + 1 - i - 1 = 0 := by omega
      rw [this]
      rfl
    · rfl
  | passLeft i j t w2 lo ro box off hbox hoff h1 h2 hrec ih =>
    cases hlo
  | passRight i j t w2 lo ro box off hbox hoff h1 hrec ih =>
    obtain ⟨g1, g2⟩ := ih hlo
    have hit : i + 1 < t := hrec.bounds.1
    refine ⟨?_, g2⟩
    rw [g1]
    have h2 : t - i - 1 = (t - (i + 1) - 1) + 1 := by omega
    rw [h2, List.range'_succ]

theorem Thread.disjoint {d : Diagram} {i j t w2 : Nat} {lo ro : List Nat}
    (h : Thread d i j t w2 lo ro) : ∀ k, k ∈ lo → k ∈ ro → False := by
  induction h with
  | term i j box off hbox hoff h1 h2 =>
    intro k hk
    simp at hk
  | passLeft i j t w2 lo ro box off hbox hoff h1 h2 hrec ih =>
    intro k hk1 hk2
    rcases List.mem_cons.mp hk1 with rfl | hk1
    · have := hrec.bounds.2.2.2 _ hk2
      omega
    · exact ih k hk1 hk2
  | passRight i j t w2 lo ro box off hbox hoff h1 hrec ih =>
    intro k hk1 hk2
    rcases List.mem_cons.mp hk2 with rfl | hk2
    · have := hrec.bounds.2.2.1 _ hk1
      omega
    · exact ih k hk1 hk2

theorem Thread.term_facts {d : Diagram} {i j t w2 : Nat} {lo ro : List Nat}
    (h : Thread d i j t w2 lo ro) :
    ∃ box off, d.boxes[t]? = some box ∧ d.offsets[t]? = some off ∧
      off ≤ w2 ∧ w2 < off + box.dom.length := by
  induction h with
  | term i j box off hbox hoff h1 h2 => exact ⟨box, off, hbox, hoff, h1, h2⟩
  | passLeft i j t w2 lo ro box off hbox hoff h1 h2 hrec ih => exact ih
  | passRight i j t w2 lo ro box off hbox hoff h1 hrec ih => exact ih

/-- Result of a successful adjacent swap, spelled out. -/
def swappedD (d : Diagram) (k : Nat) (bLow bHigh : Box) (oLow oHigh : Nat) :
    Diagram :=
  ⟨d.dom, d.cod, (d.boxes.set k bLow).set (k + 1) bHigh,
    (d.offsets.set k oLow).set (k + 1) oHigh⟩

theorem adjSwap_condB {d : Diagram} {k : Nat} {b0 b1 : Box} {o0 o1 : Nat}
    (hb0 : d.boxes[k]? = some b0) (hb1 : d.boxes[k + 1]? = some b1)
    (ho0 : d.offsets[k]? = some o0) (ho1 : d.offsets[k + 1]? = some o1)
    (hcond : o1 + b1.dom.length ≤ o0) :
    adjSwap d k false =
      .ok (swappedD d k b1 b0 o1 (o0 - b1.dom.length + b1.cod.length)) := by
  unfold adjSwap
  rw [hb0, hb1, ho0, ho1]
  unfold interchangeAdjacent
  simp only [Bool.false_eq_true, if_false, if_pos hcond]
  rfl

theorem adjSwap_condA {d : Diagram} {k : Nat} {b0 b1 : Box} {o0 o1 : Nat}
    (hb0 : d.boxes[k]? = some b0) (hb1 : d.boxes[k + 1]? = some b1)
    (ho0 : d.offsets[k]? = some o0) (ho1 : d.offsets[k + 1]? = some o1)
    (hnB : ¬ (o1 + b1.dom.length ≤ o0))
    (hcond : o0 + b0.cod.length ≤ o1) :
    adjSwap d k false =
      .ok (swappedD d k b1 b0 (o1 - b0.cod.length + b0.dom.length) o0) := by
  unfold adjSwap
  rw [hb0, hb1, ho0, ho1]
  unfold interchangeAdjacent
  simp only [Bool.false_eq_true, if_false, if_neg hnB, if_pos hcond]
  rfl

theorem swappedD_lookup (d : Diagram) (k : Nat) (bLow bHigh : Box)
    (oLow oHigh : Nat) (hk1 : k + 1 < d.boxes.length)
    (hlen : d.offsets.length = d.boxes.length) :
    (swappedD d k bLow bHigh oLow oHigh).boxes[k]? = some bLow ∧
    (swappedD d k bLow bHigh oLow oHigh).boxes[k + 1]? = some bHigh ∧
    (swappedD d k bLow bHigh oLow oHigh).offsets[k]? = some oLow ∧
    (swappedD d k bLow bHigh oLow oHigh).offsets[k + 1]? = some oHigh ∧
    (∀ m, m ≠ k → m ≠ k + 1 →
      (swappedD d k bLow bHigh oLow oHigh).boxes[m]? = d.boxes[m]? ∧
      (swappedD d k bLow bHigh oLow oHigh).offsets[m]? = d.offsets[m]?) := by
  unfold swappedD
  refine ⟨?_, ?_, ?_, ?_, ?_⟩
  · simp only
    rw [List.getElem?_set_ne (by omega), List.getElem?_set_self (by omega)]
  · simp only
    rw [List.getElem?_set_self (by simp; omega)]
  · simp only
    rw [List.getElem?_set_ne (by omega), List.getElem?_set_self (by omega)]
  · simp only
    rw [List.getElem?_set_self (by simp; omega)]
  · intro m hm1 hm2
    constructor
    · simp only
      rw [List.getElem?_set_ne (by omega), List.getElem?_set_ne (by omega)]
    · simp only
      rw [List.getElem?_set_ne (by omega), List.getElem?_set_ne (by omega)]

theorem swappedD_len (d : Diagram) (k : Nat) (bLow bHigh : Box)
    (oLow oHigh : Nat) :
    (swappedD d k bLow bHigh oLow oHigh).boxes.length = d.boxes.length ∧
    (swappedD d k bLow bHigh oLow oHigh).offsets.length =
      d.offsets.length := by
  simp [swappedD]

theorem swappedD_good {d : Diagram} {k : Nat} {bLow bHigh : Box}
    {oLow oHigh : Nat} (hg : goodBoxes d) (hlow : bLow ∈ d.boxes)
    (hhigh : bHigh ∈ d.boxes) :
    goodBoxes (swappedD d k bLow bHigh oLow oHigh) := by
  intro b hb
  simp only [swappedD] at hb
  rcases List.mem_or_eq_of_mem_set hb with hb | rfl
  · rcases List.mem_or_eq_of_mem_set hb with hb | rfl
    · exact hg b hb
    · exact hg _ hlow
  · exact hg _ hhigh

theorem mem_of_getElem? {l : List Box} {k : Nat} {b : Box}
    (h : l[k]? = some b) : b ∈ l := by
  obtain ⟨hlt, hb⟩ := List.getElem?_eq_some_iff.mp h
  exact hb ▸ List.getElem_mem hlt

theorem swap_RL_down {d : Diagram} {c w u w2 : Nat} {lo ro : List Nat}
    {p : Nat} (hlen : d.offsets.length = d.boxes.length)
    (h : Thread d c w u w2 lo ro) :
    p ∈ ro → (p + 1) ∈ lo →
    ∃ d2, adjSwap d p false = .ok d2 ∧
      Thread d2 c w u w2 (lo.map fun k => if k = p + 1 then p else k)
        (ro.map fun k => if k = p then p + 1 else k) ∧
      (∀ m, m ≠ p → m ≠ p + 1 →
        d2.boxes[m]? = d.boxes[m]? ∧ d2.offsets[m]? = d.offsets[m]?) := by
  induction h with
  | term i j box off hbox hoff h1 h2 =>
    intro hp
    simp at hp
  | passLeft i j t w2 lo ro box off hbox hoff h1 h2 hrec ih =>
    intro hp hp1
    have hrob := hrec.bounds.2.2.2
    have hlob := hrec.bounds.2.2.1
    have hpgt : i + 1 < p := by
      have := hrob p hp
      omega
    have hp1' : p + 1 ∈ lo := by
      rcases List.mem_cons.mp hp1 with heq | hmem
      · omega
      · exact hmem
    obtain ⟨d2, hswap, hthread, hloc⟩ := ih hp hp1'
    refine ⟨d2, hswap, ?_, hloc⟩
    have hmap : ((i + 1) :: lo).map (fun k => if k = p + 1 then p else k)
        = (i + 1) :: lo.map (fun k => if k = p + 1 then p else k) := by
      simp only [List.map_cons]
      rw [if_neg (by omega)]
    rw [hmap]
    obtain ⟨hb2, ho2⟩ := hloc (i + 1) (by omega) (by omega)
    exact Thread.passLeft i j t w2 _ _ box off (hb2.trans hbox)
      (ho2.trans hoff) h1 h2 hthread
  | passRight i j t w2 lo ro box off hbox hoff h1 hrec ih =>
    intro hp hp1
    have hrob := hrec.bounds.2.2.2
    have hlob := hrec.bounds.2.2.1
    rcases List.mem_cons.mp hp with heq | hpmem
    · -- the junction: the right box sits at p = i + 1, the left box above it
      subst heq
      cases hrec with
      | term _ _ box2 off2 hbox2 hoff2 g1 g2 =>
        simp at hp1
      | passRight _ _ _ _ lo2 ro2 box2 off2 hbox2 hoff2 g1 hinner =>
        have := hinner.bounds.2.2.1 _ hp1
        omega
      | passLeft _ _ _ _ lo2 ro2 Lbox oL hbL hoL g1 g2 hinner =>
        have hub : t < d.boxes.length := hinner.bounds.2.1
        have hiu : i + 1 + 1 < t := hinner.bounds.1
        have hswap := adjSwap_condB hbox hbL hoff hoL (by omega)
        set d2 := swappedD d (i + 1) Lbox box oL
          (off - Lbox.dom.length + Lbox.cod.length) with hd2
        obtain ⟨q1, q2, q3, q4, q5⟩ := swappedD_lookup d (i + 1) Lbox box
          oL (off - Lbox.dom.length + Lbox.cod.length) (by omega) hlen
        refine ⟨d2, hswap, ?_, q5⟩
        have hmaplo : ((i + 1 + 1) :: lo2).map
            (fun k => if k = i + 1 + 1 then i + 1 else k)
            = (i + 1) :: lo2 := by
          simp only [List.map_cons, if_pos rfl]
          congr 1
          have : ∀ k ∈ lo2, (if k = i + 1 + 1 then i + 1 else k) = k := by
            intro k hk
            have := hinner.bounds.2.2.1 k hk
            rw [if_neg (by omega)]
          rw [List.map_congr_left this]
          simp
        have hmapro : ((i + 1) :: ro).map
            (fun k => if k = i + 1 then i + 1 + 1 else k)
            = (i + 1 + 1) :: ro := by
          simp only [List.map_cons, if_pos rfl]
          congr 1
          have : ∀ k ∈ ro, (if k = i + 1 then i + 1 + 1 else k) = k := by
            intro k hk
            have := hinner.bounds.2.2.2 k hk
            rw [if_neg (by omega)]
          rw [List.map_congr_left this]
          simp
        rw [hmaplo, hmapro]
        refine Thread.passLeft i j t w2 _ _ Lbox oL q1 q3 (by omega)
          (by omega) ?_
        refine Thread.passRight (i + 1) _ t w2 _ _ box
          (off - Lbox.dom.length + Lbox.cod.length) q2 q4 (by omega) ?_
        exact hinner.transport (fun m hm1 hm2 => q5 m (by omega) (by omega))
    · have hpgt : i + 1 < p := by
        have := hrob p hpmem
        omega
      have hp1' : p + 1 ∈ lo := hp1
      obtain ⟨d2, hswap, hthread, hloc⟩ := ih hpmem hp1'
      refine ⟨d2, hswap, ?_, hloc⟩
      have hmap : ((i + 1) :: ro).map (fun k => if k = p then p + 1 else k)
          = (i + 1) :: ro.map (fun k => if k = p then p + 1 else k) := by
        simp only [List.map_cons]
        rw [if_neg (by omega)]
      rw [hmap]
      obtain ⟨hb2, ho2⟩ := hloc (i + 1) (by omega) (by omega)
      exact Thread.passRight i j t w2 _ _ box off (hb2.trans hbox)
        (ho2.trans hoff) h1 hthread

theorem swap_LR_up {d : Diagram} {c w u w2 : Nat} {lo ro : List Nat}
    {p : Nat} (hlen : d.offsets.length = d.boxes.length)
    (h : Thread d c w u w2 lo ro) :
    p ∈ lo → (p + 1) ∈ ro →
    ∃ d2, adjSwap d p false = .ok d2 ∧
      Thread d2 c w u w2 (lo.map fun k => if k = p then p + 1 else k)
        (ro.map fun k => if k = p + 1 then p else k) ∧
      (∀ m, m ≠ p → m ≠ p + 1 →
        d2.boxes[m]? = d.boxes[m]? ∧ d2.offsets[m]? = d.offsets[m]?) := by
  induction h with
  | term i j box off hbox hoff h1 h2 =>
    intro hp
    simp at hp
  | passRight i j t w2 lo ro box off hbox hoff h1 hrec ih =>
    intro hp hp1
    have hpgt : i + 1 < p := by
      have := hrec.bounds.2.2.1 p hp
      omega
    have hp1' : p + 1 ∈ ro := by
      rcases List.mem_cons.mp hp1 with heq | hmem
      · omega
      · exact hmem
    obtain ⟨d2, hswap, hthread, hloc⟩ := ih hp hp1'
    refine ⟨d2, hswap, ?_, hloc⟩
    have hmap : ((i + 1) :: ro).map (fun k => if k = p + 1 then p else k)
        = (i + 1) :: ro.map (fun k => if k = p + 1 then p else k) := by
      simp only [List.map_cons]
      rw [if_neg (by omega)]
    rw [hmap]
    obtain ⟨hb2, ho2⟩ := hloc (i + 1) (by omega) (by omega)
    exact Thread.passRight i j t w2 _ _ box off (hb2.trans hbox)
      (ho2.trans hoff) h1 hthread
  | passLeft i j t w2 lo ro box off hbox hoff h1 h2 hrec ih =>
    intro hp hp1
    rcases List.mem_cons.mp hp with heq | hpmem
    · -- the junction: the left box sits at p = i + 1, a right box above it
      subst heq
      cases hrec with
      | term _ _ box2 off2 hbox2 hoff2 g1 g2 =>
        simp at hp1
      | passLeft _ _ _ _ lo2 ro2 box2 off2 hbox2 hoff2 g1 g2 hinner =>
        have := hinner.bounds.2.2.2 _ hp1
        omega
      | passRight _ _ _ _ lo2 ro2 box2 off2 hbox2 hoff2 g1 hinner =>
        rcases List.mem_cons.mp hp1 with heq2 | hmem2
        swap
        · have := hinner.bounds.2.2.2 _ hmem2
          omega
        have hub : t < d.boxes.length := hinner.bounds.2.1
        have hiu : i + 1 + 1 < t := hinner.bounds.1
        have hswap := adjSwap_condA hbox hbox2 hoff hoff2 (by omega)
          (by omega)
        set d2 := swappedD d (i + 1) box2 box
          (off2 - box.cod.length + box.dom.length) off with hd2
        obtain ⟨q1, q2, q3, q4, q5⟩ := swappedD_lookup d (i + 1) box2 box
          (off2 - box.cod.length + box.dom.length) off (by omega) hlen
        refine ⟨d2, hswap, ?_, q5⟩
        have hmaplo : ((i + 1) :: lo).map
            (fun k => if k = i + 1 then i + 1 + 1 else k)
            = (i + 1 + 1) :: lo := by
          simp only [List.map_cons, if_pos rfl]
          congr 1
          have : ∀ k ∈ lo, (if k = i + 1 then i + 1 + 1 else k) = k := by
            intro k hk
            have := hinner.bounds.2.2.1 k hk
            rw [if_neg (by omega)]
          rw [List.map_congr_left this]
          simp
        have hmapro : ((i + 1 + 1) :: ro2).map
            (fun k => if k = i + 1 + 1 then i + 1 else k)
            = (i + 1) :: ro2 := by
          simp only [List.map_cons, if_pos rfl]
          congr 1
          have : ∀ k ∈ ro2, (if k = i + 1 + 1 then i + 1 else k) = k := by
            intro k hk
            have := hinner.bounds.2.2.2 k hk
            rw [if_neg (by omega)]
          rw [List.map_congr_left this]
          simp
        rw [hmaplo, hmapro]
        refine Thread.passRight i j t w2 _ _ box2
          (off2 - box.cod.length + box.dom.length) q1 q3 (by omega) ?_
        refine Thread.passLeft (i + 1) j t w2 _ _ box off q2 q4 h1 h2 ?_
        exact hinner.transport (fun m hm1 hm2 => q5 m (by omega) (by omega))
    · have hpgt : i + 1 < p := by
        have := hrec.bounds.2.2.1 p hpmem
        omega
      have hp1' : p + 1 ∈ ro := hp1
      obtain ⟨d2, hswap, hthread, hloc⟩ := ih hpmem hp1'
      refine ⟨d2, hswap, ?_, hloc⟩
      have hmap : ((i + 1) :: lo).map (fun k => if k = p then p + 1 else k)
          = (i + 1) :: lo.map (fun k => if k = p then p + 1 else k) := by
        simp only [List.map_cons]
        rw [if_neg (by omega)]
      rw [hmap]
      obtain ⟨hb2, ho2⟩ := hloc (i + 1) (by omega) (by omega)
      exact Thread.passLeft i j t w2 _ _ box off (hb2.trans hbox)
        (ho2.trans hoff) h1 h2 hthread

theorem swap_cap_left {d : Diagram} {c w u w2 : Nat} {lo ro : List Nat}
    {capbox : Box}
    (hlen : d.offsets.length = d.boxes.length)
    (hbc : d.boxes[c]? = some capbox) (hoc : d.offsets[c]? = some w)
    (h : Thread d c w u w2 ((c + 1) :: lo) ro) :
    ∃ d2 w', adjSwap d c false = .ok d2 ∧
      d2.boxes[c + 1]? = some capbox ∧ d2.offsets[c + 1]? = some w' ∧
      Thread d2 (c + 1) w' u w2 lo ro ∧
      (∀ m, m ≠ c → m ≠ c + 1 →
        d2.boxes[m]? = d.boxes[m]? ∧ d2.offsets[m]? = d.offsets[m]?) := by
  cases h with
  | passRight _ _ _ _ lo2 ro2 box off hbox hoff h1 hinner =>
    have := hinner.bounds.2.2.1 _ (List.mem_cons_self _ _)
    omega
  | passLeft _ _ _ _ lo2 ro2 Lbox oL hbL hoL g1 g2 hinner =>
    have hub : u < d.boxes.length := hinner.bounds.2.1
    have hcu : c + 1 < u := hinner.bounds.1
    have hswap := adjSwap_condB hbc hbL hoc hoL (by omega)
    obtain ⟨q1, q2, q3, q4, q5⟩ := swappedD_lookup d c Lbox capbox oL
      (w - Lbox.dom.length + Lbox.cod.length) (by omega) hlen
    refine ⟨_, w - Lbox.dom.length + Lbox.cod.length, hswap, q2, q4, ?_, q5⟩
    have heq : w + Lbox.cod.length - Lbox.dom.length
        = w - Lbox.dom.length + Lbox.cod.length := by omega
    have hth := hinner.transport
      (fun m hm1 hm2 => q5 m (by omega) (by omega))
    rw [heq] at hth
    exact hth

theorem swap_cap_right {d : Diagram} {c u w2 oc : Nat} {ro : List Nat}
    {capbox : Box}
    (hlen : d.offsets.length = d.boxes.length)
    (hbc : d.boxes[c]? = some capbox) (hoc : d.offsets[c]? = some oc)
    (hcod : capbox.cod.length = 2)
    (h : Thread d c (oc + 1) u w2 [] ((c + 1) :: ro)) :
    ∃ d2, adjSwap d c false = .ok d2 ∧
      d2.boxes[c + 1]? = some capbox ∧ d2.offsets[c + 1]? = some oc ∧
      Thread d2 (c + 1) (oc + 1) u w2 [] ro ∧
      (∀ m, m ≠ c → m ≠ c + 1 →
        d2.boxes[m]? = d.boxes[m]? ∧ d2.offsets[m]? = d.offsets[m]?) := by
  cases h with
  | passRight _ _ _ _ lo2 ro2 Rbox oR hbR hoR h1 hinner =>
    have hub : u < d.boxes.length := hinner.bounds.2.1
    have hcu : c + 1 < u := hinner.bounds.1
    have hswap := adjSwap_condA hbc hbR hoc hoR (by omega) (by omega)
    obtain ⟨q1, q2, q3, q4, q5⟩ := swappedD_lookup d c Rbox capbox
      (oR - capbox.cod.length + capbox.dom.length) oc (by omega) hlen
    refine ⟨_, hswap, q2, q4, ?_, q5⟩
    exact hinner.transport (fun m hm1 hm2 => q5 m (by omega) (by omega))

theorem swap_cup_left {d : Diagram} {c w u w2 ou : Nat} {loX ro : List Nat}
    {cupbox : Box}
    (hlen : d.offsets.length = d.boxes.length)
    (h : Thread d c w u w2 loX ro) :
    ∀ (ro0 : List Nat), loX = [] → ro = ro0 ++ [u - 1] →
    d.boxes[u]? = some cupbox → d.offsets[u]? = some ou →
    cupbox.dom.length = 2 → ou + 1 = w2 →
    ∃ d2, adjSwap d (u - 1) false = .ok d2 ∧
      Thread d2 c w (u - 1) w2 [] ro0 ∧
      d2.boxes[u - 1]? = some cupbox ∧ d2.offsets[u - 1]? = some ou ∧
      (∀ m, m ≠ u - 1 → m ≠ u →
        d2.boxes[m]? = d.boxes[m]? ∧ d2.offsets[m]? = d.offsets[m]?) := by
  induction h with
  | term i j box off hbox hoff h1 h2 =>
    intro ro0 hlo hsplit hcu hou hdom halign
    exact absurd hsplit.symm (List.append_ne_nil_of_right_ne_nil _ (by simp))
  | passLeft i j t w2 lo ro box off hbox hoff h1 h2 hrec ih =>
    intro ro0 hlo hsplit hcu hou hdom halign
    cases hlo
  | passRight i j t w2 lo ro box off hbox hoff h1 hrec ih =>
    intro ro0 hlo hsplit hcu hou hdom halign
    subst hlo
    cases ro0 with
    | nil =>
      simp only [List.nil_append, List.cons.injEq] at hsplit
      obtain ⟨hip, hronil⟩ := hsplit
      subst hronil
      cases hrec with
      | term _ _ box2 off2 hb2 ho2 g1 g2 =>
        have hbeq : box2 = cupbox := by
          rw [hb2] at hcu
          exact Option.some.inj hcu
        have hoeq : off2 = ou := by
          rw [ho2] at hou
          exact Option.some.inj hou
        subst hbeq
        subst hoeq
        have hub : i + 1 + 1 < d.boxes.length := by
          obtain ⟨hlt, -⟩ := List.getElem?_eq_some_iff.mp hb2
          omega
        have hip' : i + 1 + 1 - 1 = i + 1 := by omega
        rw [hip']
        have hswap := adjSwap_condB hbox hb2 hoff ho2 (by omega)
        obtain ⟨q1, q2, q3, q4, q5⟩ := swappedD_lookup d (i + 1) box2 box
          off2 (off - box2.dom.length + box2.cod.length) (by omega) hlen
        refine ⟨_, hswap, ?_, q1, q3, ?_⟩
        · exact Thread.term i j box2 off2 q1 q3 (by omega) (by omega)
        · intro m hm1 hm2
          exact q5 m (by omega) (by omega)
    | cons a ro0' =>
      simp only [List.cons_append, List.cons.injEq] at hsplit
      obtain ⟨ha, hsplit'⟩ := hsplit
      subst ha
      have hiu : i + 1 < t - 1 := by
        have := hrec.bounds.2.2.2 (t - 1) (by rw [hsplit']; simp)
        omega
      obtain ⟨d2, hswap, hthread, hq1, hq3, hloc⟩ := ih ro0' rfl hsplit'
        hcu hou hdom halign
      obtain ⟨hb2, ho2⟩ := hloc (i + 1) (by omega) (by omega)
      refine ⟨d2, hswap, ?_, hq1, hq3, hloc⟩
      exact Thread.passRight i j (t - 1) w2 [] ro0' box off
        (hb2.trans hbox) (ho2.trans hoff) h1 hthread

theorem interchangeAdjacent_mem {b0 b1 : Box} {o0 o1 : Nat} {left : Bool}
    {c0 c1 : Box} {p0 p1 : Nat}
    (h : interchangeAdjacent b0 b1 o0 o1 left = some ((c0, p0), (c1, p1))) :
    (c0 = b0 ∨ c0 = b1) ∧ (c1 = b0 ∨ c1 = b1) := by
  unfold interchangeAdjacent at h
  split at h
  · split at h
    · simp only [Option.some.injEq, Prod.mk.injEq] at h
      exact ⟨Or.inr h.1.1.symm, Or.inl h.2.1.symm⟩
    · split at h
      · simp only [Option.some.injEq, Prod.mk.injEq] at h
        exact ⟨Or.inr h.1.1.symm, Or.inl h.2.1.symm⟩
      · cases h
  · split at h
    · simp only [Option.some.injEq, Prod.mk.injEq] at h
      exact ⟨Or.inr h.1.1.symm, Or.inl h.2.1.symm⟩
    · split at h
      · simp only [Option.some.injEq, Prod.mk.injEq] at h
        exact ⟨Or.inr h.1.1.symm, Or.inl h.2.1.symm⟩
      · cases h

theorem adjSwap_ok_struct {d d2 : Diagram} {k : Nat} {left : Bool}
    (h : adjSwap d k left = .ok d2) :
    d2.boxes.length = d.boxes.length ∧
    d2.offsets.length = d.offsets.length ∧
    (goodBoxes d → goodBoxes d2) := by
  unfold adjSwap at h
  split at h
  · rename_i b0 b1 o0 o1 hb0 hb1 ho0 ho1
    rcases hint : interchangeAdjacent b0 b1 o0 o1 left with _ | ⟨⟨c0, p0⟩, c1, p1⟩
    · rw [hint] at h
      cases h
    · rw [hint] at h
      cases h
      refine ⟨by simp, by simp, ?_⟩
      intro hg b hb
      simp only at hb
      obtain ⟨hm0, hm1⟩ := interchangeAdjacent_mem hint
      rcases List.mem_or_eq_of_mem_set hb with hb | rfl
      · rcases List.mem_or_eq_of_mem_set hb with hb | rfl
        · exact hg b hb
        · rcases hm0 with rfl | rfl
          · exact hg _ (mem_of_getElem? hb0)
          · exact hg _ (mem_of_getElem? hb1)
      · rcases hm1 with rfl | rfl
        · exact hg _ (mem_of_getElem? hb0)
        · exact hg _ (mem_of_getElem? hb1)
  · cases h

theorem Thread.complete {d : Diagram} {i j t w2 : Nat} {lo ro : List Nat}
    (h : Thread d i j t w2 lo ro) :
    ∀ k, i < k → k < t → k ∈ lo ∨ k ∈ ro := by
  induction h with
  | term i j box off hbox hoff h1 h2 =>
    intro k hk1 hk2
    omega
  | passLeft i j t w2 lo ro box off hbox hoff h1 h2 hrec ih =>
    intro k hk1 hk2
    by_cases hk : k = i + 1
    · subst hk
      exact Or.inl (List.mem_cons_self _ _)
    · rcases ih k (by omega) hk2 with hm | hm
      · exact Or.inl (List.mem_cons_of_mem _ hm)
      · exact Or.inr hm
  | passRight i j t w2 lo ro box off hbox hoff h1 hrec ih =>
    intro k hk1 hk2
    by_cases hk : k = i + 1
    · subst hk
      exact Or.inr (List.mem_cons_self _ _)
    · rcases ih k (by omega) hk2 with hm | hm
      · exact Or.inl hm
      · exact Or.inr (List.mem_cons_of_mem _ hm)

theorem Thread.pairwise {d : Diagram} {i j t w2 : Nat} {lo ro : List Nat}
    (h : Thread d i j t w2 lo ro) :
    lo.Pairwise (· < ·) ∧ ro.Pairwise (· < ·) := by
  induction h with
  | term i j box off hbox hoff h1 h2 => exact ⟨List.Pairwise.nil, List.Pairwise.nil⟩
  | passLeft i j t w2 lo ro box off hbox hoff h1 h2 hrec ih =>
    refine ⟨List.pairwise_cons.mpr ⟨?_, ih.1⟩, ih.2⟩
    intro k hk
    exact (hrec.bounds.2.2.1 k hk).1
  | passRight i j t w2 lo ro box off hbox hoff h1 hrec ih =>
    refine ⟨ih.1, List.pairwise_cons.mpr ⟨?_, ih.2⟩⟩
    intro k hk
    exact (hrec.bounds.2.2.2 k hk).1

theorem swap_cup_right_up {d : Diagram} {c w u w2 ou : Nat}
    {loX ro : List Nat} {cupbox : Box}
    (hlen : d.offsets.length = d.boxes.length)
    (h : Thread d c w u w2 loX ro) :
    ∀ (lo0 : List Nat), loX = lo0 ++ [u - 1] →
    d.boxes[u]? = some cupbox → d.offsets[u]? = some ou →
    cupbox.dom.length = 2 → ou = w2 →
    ∃ d2 ou', adjSwap d (u - 1) false = .ok d2 ∧
      Thread d2 c w (u - 1) ou' lo0 ro ∧
      d2.boxes[u - 1]? = some cupbox ∧ d2.offsets[u - 1]? = some ou' ∧
      (∀ m, m ≠ u - 1 → m ≠ u →
        d2.boxes[m]? = d.boxes[m]? ∧ d2.offsets[m]? = d.offsets[m]?) := by
  induction h with
  | term i j box off hbox hoff h1 h2 =>
    intro lo0 hsplit hcu hou hdom halign
    exact absurd hsplit.symm (List.append_ne_nil_of_right_ne_nil _ (by simp))
  | passRight i j t w2 lo ro box off hbox hoff h1 hrec ih =>
    intro lo0 hsplit hcu hou hdom halign
    have hbound : i + 1 < t - 1 := by
      have := hrec.bounds.2.2.1 (t - 1) (by rw [hsplit]; simp)
      omega
    obtain ⟨d2, ou', hswap, hth, hq1, hq3, hloc⟩ :=
      ih lo0 hsplit hcu hou hdom halign
    obtain ⟨hb2, ho2⟩ := hloc (i + 1) (by omega) (by omega)
    refine ⟨d2, ou', hswap, ?_, hq1, hq3, hloc⟩
    exact Thread.passRight i j (t - 1) ou' lo0 ro box off (hb2.trans hbox)
      (ho2.trans hoff) h1 hth
  | passLeft i j t w2 lo ro box off hbox hoff h1 h2 hrec ih =>
    intro lo0 hsplit hcu hou hdom halign
    cases lo0 with
    | cons a lo0' =>
      simp only [List.cons_append, List.cons.injEq] at hsplit
      obtain ⟨ha, hsplit'⟩ := hsplit
      subst ha
      have hbound : i + 1 < t - 1 := by
        have := hrec.bounds.2.2.1 (t - 1) (by rw [hsplit']; simp)
        omega
      obtain ⟨d2, ou', hswap, hth, hq1, hq3, hloc⟩ :=
        ih lo0' hsplit' hcu hou hdom halign
      obtain ⟨hb2, ho2⟩ := hloc (i + 1) (by omega) (by omega)
      refine ⟨d2, ou', hswap, ?_, hq1, hq3, hloc⟩
      exact Thread.passLeft i j (t - 1) ou' lo0' ro box off (hb2.trans hbox)
        (ho2.trans hoff) h1 h2 hth
    | nil =>
      simp only [List.nil_append, List.cons.injEq] at hsplit
      obtain ⟨hip, hlonil⟩ := hsplit
      subst hlonil
      cases hrec with
      | passRight _ _ _ _ _ ro2 box2 off2 hb2 ho2 g1 hinner =>
        have := hinner.bounds.1
        omega
      | term _ _ box2 off2 hb2 ho2 g1 g2 =>
        have hbeq : box2 = cupbox := by
          rw [hb2] at hcu
          exact Option.some.inj hcu
        have hoeq : off2 = ou := by
          rw [ho2] at hou
          exact Option.some.inj hou
        subst hbeq
        subst hoeq
        have hub : i + 1 + 1 < d.boxes.length := by
          obtain ⟨hlt, -⟩ := List.getElem?_eq_some_iff.mp hb2
          omega
        have hip' : i + 1 + 1 - 1 = i + 1 := by omega
        rw [hip']
        have hswap := adjSwap_condA hbox hb2 hoff ho2 (by omega) (by omega)
        obtain ⟨q1, q2, q3, q4, q5⟩ := swappedD_lookup d (i + 1) box2 box
          (off2 - box.cod.length + box.dom.length) off (by omega) hlen
        have hou' : off2 - box.cod.length + box.dom.length = j := by omega
        refine ⟨_, off2 - box.cod.length + box.dom.length, hswap, ?_, q1, q3,
          ?_⟩
        · rw [hou'] at q1 q3 ⊢
          exact Thread.term i j box2 j q1 q3 (by omega) (by omega)
        · intro m hm1 hm2
          exact q5 m (by omega) (by omega)

theorem la_descent {c u w2 : Nat} {capbox : Box} :
    ∀ (n : Nat) (d : Diagram) (lo ro : List Nat) (w : Nat),
      d.offsets.length = d.boxes.length →
      d.boxes[c]? = some capbox → d.offsets[c]? = some w →
      Thread d c w u w2 ((c + 1 + n) :: lo) ro →
      ∃ d2 w', interchangeDown d (c + 1 + n) false (n + 1) = .ok d2 ∧
        d2.boxes[c + 1]? = some capbox ∧ d2.offsets[c + 1]? = some w' ∧
        Thread d2 (c + 1) w' u w2 lo
          (ro.map fun r => if r < c + 1 + n then r + 1 else r) ∧
        d2.offsets.length = d2.boxes.length ∧
        d2.boxes.length = d.boxes.length ∧
        (goodBoxes d → goodBoxes d2) ∧
        (∀ m, c + 1 + n < m →
          d2.boxes[m]? = d.boxes[m]? ∧ d2.offsets[m]? = d.offsets[m]?) := by
  intro n
  induction n with
  | zero =>
    intro d lo ro w hlen hbc hoc h
    rw [Nat.add_zero] at h ⊢
    obtain ⟨d2, w', hswap, hq1, hq3, hth, hloc⟩ := swap_cap_left hlen hbc hoc h
    obtain ⟨hblen2, holen2, hgood2⟩ := adjSwap_ok_struct hswap
    have hro : (ro.map fun r => if r < c + 1 then r + 1 else r) = ro := by
      have hmem : ∀ r ∈ ro, (if r < c + 1 then r + 1 else r) = r := by
        intro r hr
        have := h.bounds.2.2.2 r hr
        rw [if_neg (by omega)]
      rw [List.map_congr_left hmem]
      simp
    refine ⟨d2, w', ?_, hq1, hq3, ?_, by rw [holen2, hblen2]; exact hlen,
      hblen2, hgood2, ?_⟩
    · unfold interchangeDown
      rw [show c + 1 - 1 = c from rfl, hswap]
      rfl
    · rw [hro]
      exact hth
    · intro m hm
      exact hloc m (by omega) (by omega)
  | succ n ih =>
    intro d lo ro w hlen hbc hoc h
    have hpair := h.pairwise
    have hbnds := h.bounds
    have hheadu : c + 1 + (n + 1) < u :=
      (hbnds.2.2.1 _ (List.mem_cons_self _ _)).2
    have hpro : (c + 1 + n) ∈ ro := by
      rcases h.complete (c + 1 + n) (by omega) (by omega) with hm | hm
      · exfalso
        rcases List.mem_cons.mp hm with heq | hm
        · omega
        · have := (List.pairwise_cons.mp hpair.1).1 _ hm
          omega
      · exact hm
    have hp1lo : (c + 1 + n) + 1 ∈ (c + 1 + (n + 1)) :: lo := by
      have he : c + 1 + n + 1 = c + 1 + (n + 1) := by omega
      rw [he]
      exact List.mem_cons_self _ _
    obtain ⟨d2, hswap, hth2, hloc2⟩ := swap_RL_down hlen h hpro hp1lo
    have hmaplo : ((c + 1 + (n + 1)) :: lo).map
        (fun k => if k = c + 1 + n + 1 then c + 1 + n else k)
        = (c + 1 + n) :: lo := by
      simp only [List.map_cons]
      rw [if_pos (by omega)]
      congr 1
      have hmem : ∀ k ∈ lo,
          (if k = c + 1 + n + 1 then c + 1 + n else k) = k := by
        intro k hk
        have := (List.pairwise_cons.mp hpair.1).1 k hk
        rw [if_neg (by omega)]
      rw [List.map_congr_left hmem]
      simp
    rw [hmaplo] at hth2
    obtain ⟨hb2, ho2⟩ := hloc2 c (by omega) (by omega)
    obtain ⟨hblen2, holen2, hgood2⟩ := adjSwap_ok_struct hswap
    obtain ⟨d3, w', hdown3, hq1, hq3, hth3, e1, e2, e3, hloc3⟩ :=
      ih d2 lo (ro.map fun k => if k = c + 1 + n then c + 1 + n + 1 else k) w
        (by rw [holen2, hblen2]; exact hlen) (hb2.trans hbc) (ho2.trans hoc)
        hth2
    have hcomp : ∀ r ∈ ro,
        ((fun r => if r < c + 1 + n then r + 1 else r) ∘
          (fun k => if k = c + 1 + n then c + 1 + n + 1 else k)) r
        = (if r < c + 1 + (n + 1) then r + 1 else r) := by
      intro r _
      simp only [Function.comp]
      split_ifs <;> omega
    have hmapro : (ro.map fun k => if k = c + 1 + n then c + 1 + n + 1 else k).map
          (fun r => if r < c + 1 + n then r + 1 else r)
        = ro.map fun r => if r < c + 1 + (n + 1) then r + 1 else r := by
      rw [List.map_map]
      exact List.map_congr_left hcomp
    rw [hmapro] at hth3
    refine ⟨d3, w', ?_, hq1, hq3, hth3, e1, by rw [e2, hblen2], ?_, ?_⟩
    · show interchangeDown d (c + 1 + (n + 1)) false (n + 1 + 1) = .ok d3
      unfold interchangeDown
      rw [show c + 1 + (n + 1) - 1 = c + 1 + n from rfl, hswap]
      exact hdown3
    · exact fun hg => e3 (hgood2 hg)
    · intro m hm
      obtain ⟨a1, a2⟩ := hloc3 m (by omega)
      obtain ⟨b1, b2⟩ := hloc2 m (by omega) (by omega)
      exact ⟨a1.trans b1, a2.trans b2⟩

theorem moveLoopLA_sound {u w2 : Nat} {capbox : Box} :
    ∀ (lo : List Nat) (d : Diagram) (c : Nat) (ro : List Nat) (w : Nat),
      d.offsets.length = d.boxes.length →
      goodBoxes d →
      d.boxes[c]? = some capbox → d.offsets[c]? = some w →
      Thread d c w u w2 lo ro →
      ∃ w',
        (moveLoopLA d c ro lo).err = none ∧
        (moveLoopLA d c ro lo).idx = c + lo.length ∧
        (moveLoopLA d c ro lo).diag.boxes[c + lo.length]? = some capbox ∧
        (moveLoopLA d c ro lo).diag.offsets[c + lo.length]? = some w' ∧
        Thread (moveLoopLA d c ro lo).diag (c + lo.length) w' u w2 []
          (moveLoopLA d c ro lo).ro ∧
        (moveLoopLA d c ro lo).diag.offsets.length =
          (moveLoopLA d c ro lo).diag.boxes.length ∧
        (moveLoopLA d c ro lo).diag.boxes.length = d.boxes.length ∧
        goodBoxes (moveLoopLA d c ro lo).diag ∧
        (∀ m, u ≤ m →
          (moveLoopLA d c ro lo).diag.boxes[m]? = d.boxes[m]? ∧
          (moveLoopLA d c ro lo).diag.offsets[m]? = d.offsets[m]?) := by
  intro lo
  induction lo with
  | nil =>
    intro d c ro w hlen hgood hbc hoc h
    exact ⟨w, rfl, rfl, hbc, hoc, h, hlen, rfl, hgood, fun m _ => ⟨rfl, rfl⟩⟩
  | cons b rest ih =>
    intro d c ro w hlen hgood hbc hoc h
    obtain ⟨n, rfl⟩ : ∃ n, b = c + 1 + n :=
      ⟨b - c - 1, by
        have := (h.bounds.2.2.1 b (List.mem_cons_self _ _)).1
        omega⟩
    have hbu : c + 1 + n < u :=
      (h.bounds.2.2.1 _ (List.mem_cons_self _ _)).2
    have hulen : u < d.boxes.length := h.bounds.2.1
    obtain ⟨d2, w', hdown, hq1, hq3, hth2, e1, e2, e3, hloc2⟩ :=
      la_descent n d rest ro w hlen hbc hoc h
    have hint : d.interchange (c + 1 + n) c false =
        interchangeDown d (c + 1 + n) false (n + 1) := by
      unfold Diagram.interchange
      rw [if_pos ⟨by omega, by omega⟩, if_neg (by omega),
        show c + 1 + n - c = n + 1 from by omega]
    have hred : moveLoopLA d c ro ((c + 1 + n) :: rest) =
        ⟨d2 :: (moveLoopLA d2 (c + 1)
            (ro.map fun rb => if rb < c + 1 + n then rb + 1 else rb)
            rest).steps,
          (moveLoopLA d2 (c + 1)
            (ro.map fun rb => if rb < c + 1 + n then rb + 1 else rb)
            rest).diag,
          (moveLoopLA d2 (c + 1)
            (ro.map fun rb => if rb < c + 1 + n then rb + 1 else rb)
            rest).idx,
          (moveLoopLA d2 (c + 1)
            (ro.map fun rb => if rb < c + 1 + n then rb + 1 else rb)
            rest).ro,
          (moveLoopLA d2 (c + 1)
            (ro.map fun rb => if rb < c + 1 + n then rb + 1 else rb)
            rest).err⟩ := by
      simp only [moveLoopLA, hint, hdown]
    obtain ⟨w'', sErr, sIdx, sB, sO, sTh, sLen, sLenEq, sGood, sLoc⟩ :=
      ih d2 (c + 1)
        (ro.map fun rb => if rb < c + 1 + n then rb + 1 else rb) w'
        e1 (e3 hgood) hq1 hq3 hth2
    have hlenc : c + 1 + rest.length = c + ((c + 1 + n) :: rest).length := by
      simp only [List.length_cons]
      omega
    refine ⟨w'', ?_, ?_, ?_, ?_, ?_, ?_, ?_, ?_, ?_⟩
    · rw [hred]
      exact sErr
    · rw [hred]
      simp only [List.length_cons]
      rw [sIdx]
      omega
    · rw [hred, ← hlenc]
      exact sB
    · rw [hred, ← hlenc]
      exact sO
    · rw [hred, ← hlenc]
      exact sTh
    · rw [hred]
      exact sLen
    · rw [hred, sLenEq]
      exact e2
    · rw [hred]
      exact sGood
    · intro m hm
      rw [hred]
      obtain ⟨a1, a2⟩ := sLoc m hm
      obtain ⟨b1, b2⟩ := hloc2 m (by omega)
      exact ⟨a1.trans b1, a2.trans b2⟩

theorem interchangeUp_one (d : Diagram) (i : Nat) :
    interchangeUp d i false 1 = adjSwap d i false := by
  unfold interchangeUp
  cases h : adjSwap d i false with
  | error e => rfl
  | ok d2 => rfl

theorem interchangeDown_one (d : Diagram) (i : Nat) :
    interchangeDown d i false 1 = adjSwap d (i - 1) false := by
  unfold interchangeDown
  cases h : adjSwap d (i - 1) false with
  | error e => rfl
  | ok d2 => rfl

theorem moveLoopLB_sound {c w w2 ou : Nat} {capbox cupbox : Box}
    (hdom : cupbox.dom.length = 2) (halign : ou + 1 = w2) :
    ∀ (m : Nat) (d : Diagram) (u : Nat),
      d.offsets.length = d.boxes.length →
      goodBoxes d →
      d.boxes[c]? = some capbox → d.offsets[c]? = some w →
      d.boxes[u]? = some cupbox → d.offsets[u]? = some ou →
      Thread d c w u w2 [] (List.range' (c + 1) m) →
      u = c + m + 1 →
      ∃ dB ys2,
        moveLoopLB d u ((List.range' (c + 1) m).reverse) =
          (ys2, dB, c + 1, none) ∧
        dB.boxes[c]? = some capbox ∧
        dB.boxes[c + 1]? = some cupbox ∧
        dB.offsets.length = dB.boxes.length ∧
        dB.boxes.length = d.boxes.length ∧
        goodBoxes dB := by
  intro m
  induction m with
  | zero =>
    intro d u hlen hgood hbc hoc hcu hou h hu
    subst hu
    exact ⟨d, [], rfl, hbc, hcu, hlen, rfl, hgood⟩
  | succ m ih =>
    intro d u hlen hgood hbc hoc hcu hou h hu
    have hulen : u < d.boxes.length := h.bounds.2.1
    have hrange : List.range' (c + 1) (m + 1) =
        List.range' (c + 1) m ++ [u - 1] := by
      rw [List.range'_1_concat]
      have he : c + 1 + m = u - 1 := by omega
      rw [he]
    rw [hrange] at h
    obtain ⟨d2, hswap, hth2, hq1, hq3, hloc⟩ :=
      swap_cup_left hlen h (List.range' (c + 1) m) rfl rfl hcu hou hdom halign
    obtain ⟨hblen2, holen2, hgood2⟩ := adjSwap_ok_struct hswap
    have hint : d.interchange (u - 1) u false = adjSwap d (u - 1) false := by
      unfold Diagram.interchange
      rw [if_pos ⟨by omega, by omega⟩, if_pos (by omega),
        show u - (u - 1) = 1 from by omega, interchangeUp_one]
    obtain ⟨hb2c, ho2c⟩ := hloc c (by omega) (by omega)
    obtain ⟨dB, ys2', hIH, f1, f2, f3, f4, f5⟩ :=
      ih d2 (u - 1) (by rw [holen2, hblen2]; exact hlen) (hgood2 hgood)
        (hb2c.trans hbc) (ho2c.trans hoc) hq1 hq3 hth2 (by omega)
    have hrev : (List.range' (c + 1) (m + 1)).reverse =
        (u - 1) :: (List.range' (c + 1) m).reverse := by
      rw [hrange, List.reverse_append]
      rfl
    refine ⟨dB, d2 :: ys2', ?_, f1, f2, f3, f4.trans hblen2, f5⟩
    rw [hrev]
    show (match d.interchange (u - 1) u false with
      | .error e => ([], d, u, some e)
      | .ok d2 =>
        let s := moveLoopLB d2 (u - 1) ((List.range' (c + 1) m).reverse)
        (d2 :: s.1, s.2)) = (d2 :: ys2', dB, c + 1, none)
    rw [hint, hswap]
    simp only [hIH]

theorem ra_ascent {c u w2 w : Nat} {cupbox : Box} :
    ∀ (n : Nat) (d : Diagram) (l : Nat) (lo0 ro : List Nat) (ou : Nat),
      d.offsets.length = d.boxes.length →
      l + n + 1 = u →
      Thread d c w u w2 (lo0 ++ [l]) ro →
      d.boxes[u]? = some cupbox → d.offsets[u]? = some ou →
      cupbox.dom.length = 2 → ou = w2 →
      ∃ d2 ou', interchangeUp d l false (n + 1) = .ok d2 ∧
        Thread d2 c w (u - 1) ou' lo0
          (ro.map fun r => if l < r then r - 1 else r) ∧
        d2.boxes[u - 1]? = some cupbox ∧ d2.offsets[u - 1]? = some ou' ∧
        d2.offsets.length = d2.boxes.length ∧
        d2.boxes.length = d.boxes.length ∧
        (goodBoxes d → goodBoxes d2) ∧
        (∀ m, m < l → d2.boxes[m]? = d.boxes[m]? ∧
          d2.offsets[m]? = d.offsets[m]?) := by
  intro n
  induction n with
  | zero =>
    intro d l lo0 ro ou hlen hlu h hcu hou hdom halign
    have hl : l = u - 1 := by omega
    subst hl
    obtain ⟨d2, ou', hswap, hth, hq1, hq3, hloc⟩ :=
      swap_cup_right_up hlen h lo0 rfl hcu hou hdom halign
    obtain ⟨hblen2, holen2, hgood2⟩ := adjSwap_ok_struct hswap
    have hro : (ro.map fun r => if u - 1 < r then r - 1 else r) = ro := by
      have hmem : ∀ r ∈ ro, (if u - 1 < r then r - 1 else r) = r := by
        intro r hr
        have := h.bounds.2.2.2 r hr
        rw [if_neg (by omega)]
      rw [List.map_congr_left hmem]
      simp
    refine ⟨d2, ou', ?_, ?_, hq1, hq3, holen2.trans (hlen.trans hblen2.symm),
      hblen2, hgood2, ?_⟩
    · rw [interchangeUp_one]
      exact hswap
    · rw [hro]
      exact hth
    · intro m hm
      exact hloc m (by omega) (by omega)
  | succ n ih =>
    intro d l lo0 ro ou hlen hlu h hcu hou hdom halign
    have hpair := h.pairwise
    have hcl : c < l :=
      (h.bounds.2.2.1 l (List.mem_append_right _ (by simp))).1
    have hp1 : l + 1 ∈ ro := by
      rcases h.complete (l + 1) (by omega) (by omega) with hm | hm
      · exfalso
        rcases List.mem_append.mp hm with hm | hm
        · have := (List.pairwise_append.mp hpair.1).2.2 _ hm _
            (List.mem_singleton_self l)
          omega
        · simp at hm
      · exact hm
    obtain ⟨d2, hswap, hth2, hloc2⟩ := swap_LR_up hlen h
      (List.mem_append_right _ (by simp)) hp1
    have hmaplo : (lo0 ++ [l]).map (fun k => if k = l then l + 1 else k)
        = lo0 ++ [l + 1] := by
      rw [List.map_append]
      congr 1
      · have hmem : ∀ k ∈ lo0, (if k = l then l + 1 else k) = k := by
          intro k hk
          have := (List.pairwise_append.mp hpair.1).2.2 _ hk _
            (List.mem_singleton_self l)
          rw [if_neg (by omega)]
        rw [List.map_congr_left hmem]
        simp
      · simp
    rw [hmaplo] at hth2
    obtain ⟨hblen2, holen2, hgood2⟩ := adjSwap_ok_struct hswap
    obtain ⟨hb2u, ho2u⟩ := hloc2 u (by omega) (by omega)
    obtain ⟨d3, ou', hup3, hth3, g1, g2, g3, g4, g5, g6⟩ :=
      ih d2 (l + 1) lo0 (ro.map fun k => if k = l + 1 then l else k) ou
        (holen2.trans (hlen.trans hblen2.symm)) (by omega) hth2
        (hb2u.trans hcu) (ho2u.trans hou) hdom halign
    have hcomp : ∀ r ∈ ro,
        ((fun r => if l + 1 < r then r - 1 else r) ∘
          (fun k => if k = l + 1 then l else k)) r
        = (if l < r then r - 1 else r) := by
      intro r _
      simp only [Function.comp]
      split_ifs <;> omega
    have hmapro : (ro.map fun k => if k = l + 1 then l else k).map
          (fun r => if l + 1 < r then r - 1 else r)
        = ro.map fun r => if l < r then r - 1 else r := by
      rw [List.map_map]
      exact List.map_congr_left hcomp
    rw [hmapro] at hth3
    refine ⟨d3, ou', ?_, hth3, g1, g2, g3, g4.trans hblen2, ?_, ?_⟩
    · unfold interchangeUp
      rw [hswap]
      exact hup3
    · exact fun hg => g5 (hgood2 hg)
    · intro m hm
      obtain ⟨a1, a2⟩ := g6 m (by omega)
      obtain ⟨b1, b2⟩ := hloc2 m (by omega) (by omega)
      exact ⟨a1.trans b1, a2.trans b2⟩

theorem moveLoopRA_sound {c w : Nat} {cupbox : Box} :
    ∀ (la : List Nat) (d : Diagram) (u : Nat) (ro : List Nat)
      (w2 ou : Nat),
      d.offsets.length = d.boxes.length →
      goodBoxes d →
      Thread d c w u w2 la.reverse ro →
      d.boxes[u]? = some cupbox → d.offsets[u]? = some ou →
      cupbox.dom.length = 2 → ou = w2 →
      ∃ w2',
        (moveLoopRA d u ro la).err = none ∧
        (moveLoopRA d u ro la).idx = u - la.length ∧
        (moveLoopRA d u ro la).diag.boxes[u - la.length]? = some cupbox ∧
        (moveLoopRA d u ro la).diag.offsets[u - la.length]? = some w2' ∧
        Thread (moveLoopRA d u ro la).diag c w (u - la.length) w2' []
          (moveLoopRA d u ro la).ro ∧
        (moveLoopRA d u ro la).diag.offsets.length =
          (moveLoopRA d u ro la).diag.boxes.length ∧
        (moveLoopRA d u ro la).diag.boxes.length = d.boxes.length ∧
        goodBoxes (moveLoopRA d u ro la).diag ∧
        (∀ m, m ≤ c →
          (moveLoopRA d u ro la).diag.boxes[m]? = d.boxes[m]? ∧
          (moveLoopRA d u ro la).diag.offsets[m]? = d.offsets[m]?) := by
  intro la
  induction la with
  | nil =>
    intro d u ro w2 ou hlen hgood h hcu hou hdom halign
    subst halign
    exact ⟨ou, rfl, rfl, hcu, hou, h, hlen, rfl, hgood, fun m _ => ⟨rfl, rfl⟩⟩
  | cons a rest ih =>
    intro d u ro w2 ou hlen hgood h hcu hou hdom halign
    have hrev : (a :: rest).reverse = rest.reverse ++ [a] := by simp
    rw [hrev] at h
    have hau : a < u :=
      (h.bounds.2.2.1 a (List.mem_append_right _ (by simp))).2
    have hca : c < a :=
      (h.bounds.2.2.1 a (List.mem_append_right _ (by simp))).1
    have hulen : u < d.boxes.length := h.bounds.2.1
    obtain ⟨n, hn⟩ : ∃ n, a + n + 1 = u := ⟨u - a - 1, by omega⟩
    obtain ⟨d2, ou', hup, hth2, hq1, hq3, e1, e2, e3, hloc2⟩ :=
      ra_ascent n d a rest.reverse ro ou hlen hn h hcu hou hdom halign
    have hint : d.interchange a u false = .ok d2 := by
      unfold Diagram.interchange
      rw [if_pos ⟨by omega, by omega⟩, if_pos (by omega),
        show u - a = n + 1 from by omega]
      exact hup
    have hred : moveLoopRA d u ro (a :: rest) =
        ⟨d2 :: (moveLoopRA d2 (u - 1)
            (ro.map fun rb => if a < rb then rb - 1 else rb) rest).steps,
          (moveLoopRA d2 (u - 1)
            (ro.map fun rb => if a < rb then rb - 1 else rb) rest).diag,
          (moveLoopRA d2 (u - 1)
            (ro.map fun rb => if a < rb then rb - 1 else rb) rest).idx,
          (moveLoopRA d2 (u - 1)
            (ro.map fun rb => if a < rb then rb - 1 else rb) rest).ro,
          (moveLoopRA d2 (u - 1)
            (ro.map fun rb => if a < rb then rb - 1 else rb) rest).err⟩ := by
      simp only [moveLoopRA, hint]
    obtain ⟨w2', sErr, sIdx, sB, sO, sTh, sLen, sLenEq, sGood, sLoc⟩ :=
      ih d2 (u - 1) (ro.map fun rb => if a < rb then rb - 1 else rb) ou' ou'
        e1 (e3 hgood) hth2 hq1 hq3 hdom rfl
    have hlc : u - 1 - rest.length = u - (a :: rest).length := by
      simp only [List.length_cons]
      omega
    refine ⟨w2', ?_, ?_, ?_, ?_, ?_, ?_, ?_, ?_, ?_⟩
    · rw [hred]
      exact sErr
    · rw [hred]
      simp only [List.length_cons]
      rw [sIdx]
      omega
    · rw [hred, ← hlc]
      exact sB
    · rw [hred, ← hlc]
      exact sO
    · rw [hred, ← hlc]
      exact sTh
    · rw [hred]
      exact sLen
    · rw [hred, sLenEq]
      exact e2
    · rw [hred]
      exact sGood
    · intro m hm
      rw [hred]
      obtain ⟨a1, a2⟩ := sLoc m hm
      obtain ⟨b1, b2⟩ := hloc2 m (by omega)
      exact ⟨a1.trans b1, a2.trans b2⟩

theorem moveLoopRB_sound {w2 : Nat} {capbox cupbox : Box}
    (hcod : capbox.cod.length = 2) :
    ∀ (m : Nat) (d : Diagram) (c oc : Nat),
      d.offsets.length = d.boxes.length →
      goodBoxes d →
      d.boxes[c]? = some capbox → d.offsets[c]? = some oc →
      Thread d c (oc + 1) (c + m + 1) w2 [] (List.range' (c + 1) m) →
      d.boxes[c + m + 1]? = some cupbox →
      ∃ dB ys2,
        moveLoopRB d c (List.range' (c + 1) m) = (ys2, dB, c + m, none) ∧
        dB.boxes[c + m]? = some capbox ∧
        dB.boxes[c + m + 1]? = some cupbox ∧
        dB.offsets.length = dB.boxes.length ∧
        dB.boxes.length = d.boxes.length ∧
        goodBoxes dB := by
  intro m
  induction m with
  | zero =>
    intro d c oc hlen hgood hbc hoc h hcu
    exact ⟨d, [], rfl, hbc, hcu, hlen, rfl, hgood⟩
  | succ m ih =>
    intro d c oc hlen hgood hbc hoc h hcu
    have hulen : c + (m + 1) + 1 < d.boxes.length := h.bounds.2.1
    rw [List.range'_succ] at h
    obtain ⟨d2, hswap, hq1, hq3, hth2, hloc⟩ :=
      swap_cap_right hlen hbc hoc hcod h
    obtain ⟨hblen2, holen2, hgood2⟩ := adjSwap_ok_struct hswap
    have hint : d.interchange (c + 1) c false = .ok d2 := by
      unfold Diagram.interchange
      rw [if_pos ⟨by omega, by omega⟩, if_neg (by omega),
        show c + 1 - c = 1 from by omega, interchangeDown_one]
      exact hswap
    have he1 : c + (m + 1) + 1 = c + 1 + m + 1 := by omega
    rw [he1] at hth2 hcu
    obtain ⟨hb2u, ho2u⟩ := hloc (c + 1 + m + 1) (by omega) (by omega)
    obtain ⟨dB, ys2', hIH, f1, f2, f3, f4, f5⟩ :=
      ih d2 (c + 1) oc (by rw [holen2, hblen2]; exact hlen) (hgood2 hgood)
        hq1 hq3 hth2 (hb2u.trans hcu)
    have he2 : c + 1 + m = c + (m + 1) := by omega
    rw [he2] at hIH f1
    rw [show c + 1 + m + 1 = c + (m + 1) + 1 from by omega] at f2
    refine ⟨dB, d2 :: ys2', ?_, f1, f2, f3, f4.trans hblen2, f5⟩
    rw [List.range'_succ]
    show (match d.interchange (c + 1) c false with
      | .error e => ([], d, c, some e)
      | .ok d2 =>
        let s := moveLoopRB d2 (c + 1) (List.range' (c + 1 + 1) m)
        (d2 :: s.1, s.2)) = (d2 :: ys2', dB, c + (m + 1), none)
    rw [hint]
    simp only [hIH]

theorem moveSteps_left_ok {d : Diagram} {cup cap : Nat} {lo ro : List Nat}
    {capbox cupbox : Box} {oc coff w2 : Nat}
    (hlen : d.offsets.length = d.boxes.length)
    (hgood : goodBoxes d)
    (hbc : d.boxes[cap]? = some capbox) (hoc : d.offsets[cap]? = some oc)
    (hcu : d.boxes[cup]? = some cupbox) (hcoff : d.offsets[cup]? = some coff)
    (hdom : cupbox.dom.length = 2)
    (h : Thread d cap oc cup w2 lo ro)
    (halign : coff + 1 = w2) :
    ∃ ys fin, moveSteps d cup cap lo ro true = (ys, .ok fin) ∧
      ys.getLast? = some fin ∧
      fin.boxes.length + 2 = d.boxes.length ∧
      fin.offsets.length = fin.boxes.length ∧
      goodBoxes fin := by
  have hcuplen : cup < d.boxes.length := h.bounds.2.1
  obtain ⟨w', sErr, sIdx, sB, sO, sTh, sLen, sLenEq, sGood, sLoc⟩ :=
    moveLoopLA_sound lo d cap ro oc hlen hgood hbc hoc h
  obtain ⟨hcuA, hcoA⟩ := sLoc cup (Nat.le_refl _)
  have hcuA' := hcuA.trans hcu
  have hcoA' := hcoA.trans hcoff
  obtain ⟨hro, hw2⟩ := sTh.no_left_range
  have hcA : cap + lo.length < cup := sTh.bounds.1
  have hu : cup = (cap + lo.length) + (cup - (cap + lo.length) - 1) + 1 := by
    omega
  rw [hro] at sTh
  obtain ⟨dB, ys2, hLB, g1, g2, g3, g4, g5⟩ :=
    moveLoopLB_sound hdom halign (cup - (cap + lo.length) - 1)
      (moveLoopLA d cap ro lo).diag cup sLen sGood sB sO hcuA' hcoA' sTh hu
  have hfin : moveSteps d cup cap lo ro true =
      ((moveLoopLA d cap ro lo).steps ++ ys2 ++
        [⟨dB.dom, dB.cod,
          dB.boxes.take (cap + lo.length) ++
            dB.boxes.drop (cap + lo.length + 1 + 1),
          dB.offsets.take (cap + lo.length) ++
            dB.offsets.drop (cap + lo.length + 1 + 1)⟩],
        .ok ⟨dB.dom, dB.cod,
          dB.boxes.take (cap + lo.length) ++
            dB.boxes.drop (cap + lo.length + 1 + 1),
          dB.offsets.take (cap + lo.length) ++
            dB.offsets.drop (cap + lo.length + 1 + 1)⟩) := by
    unfold moveSteps
    simp only [if_true, sErr, hro, hLB, sIdx]
  refine ⟨_, _, hfin, List.getLast?_concat _, ?_, ?_, ?_⟩
  · simp only [List.length_append, List.length_take, List.length_drop]
    have := g4.trans sLenEq
    omega
  · simp only [List.length_append, List.length_take, List.length_drop]
    have h1 := g4.trans sLenEq
    have h2 := g3
    omega
  · intro b hb
    simp only [List.mem_append] at hb
    rcases hb with hb | hb
    · exact g5 b (List.take_subset _ _ hb)
    · exact g5 b (List.drop_subset _ _ hb)

theorem moveSteps_right_ok {d : Diagram} {cup cap : Nat} {lo ro : List Nat}
    {capbox cupbox : Box} {oc coff w2 : Nat}
    (hlen : d.offsets.length = d.boxes.length)
    (hgood : goodBoxes d)
    (hbc : d.boxes[cap]? = some capbox) (hoc : d.offsets[cap]? = some oc)
    (hcod : capbox.cod.length = 2)
    (hcu : d.boxes[cup]? = some cupbox) (hcoff : d.offsets[cup]? = some coff)
    (hdom : cupbox.dom.length = 2)
    (h : Thread d cap (oc + 1) cup w2 lo ro)
    (halign : coff = w2) :
    ∃ ys fin, moveSteps d cup cap lo ro false = (ys, .ok fin) ∧
      ys.getLast? = some fin ∧
      fin.boxes.length + 2 = d.boxes.length ∧
      fin.offsets.length = fin.boxes.length ∧
      goodBoxes fin := by
  have hcuplen : cup < d.boxes.length := h.bounds.2.1
  have hrev : (lo.reverse).reverse = lo := List.reverse_reverse lo
  rw [← hrev] at h
  obtain ⟨w2', sErr, sIdx, sB, sO, sTh, sLen, sLenEq, sGood, sLoc⟩ :=
    moveLoopRA_sound lo.reverse d cup ro w2 coff hlen hgood h hcu hcoff
      hdom halign
  rw [List.length_reverse] at sIdx sB sO sTh
  obtain ⟨hbcA, hocA⟩ := sLoc cap (Nat.le_refl _)
  have hbcA' := hbcA.trans hbc
  have hocA' := hocA.trans hoc
  obtain ⟨hro, hw2⟩ := sTh.no_left_range
  have hcA : cap < cup - lo.length := sTh.bounds.1
  have hq : cup - lo.length = cap + (cup - lo.length - cap - 1) + 1 := by
    omega
  rw [hro, hw2] at sTh
  have sTh' : Thread (moveLoopRA d cup ro lo.reverse).diag cap (oc + 1)
      (cap + (cup - lo.length - cap - 1) + 1) (oc + 1) []
      (List.range' (cap + 1) (cup - lo.length - cap - 1)) := by
    rw [← hq]
    exact sTh
  have sB' : (moveLoopRA d cup ro lo.reverse).diag.boxes[cap +
      (cup - lo.length - cap - 1) + 1]? = some cupbox := by
    rw [← hq]
    exact sB
  obtain ⟨dB, ys2, hRB, f1, f2, f3, f4, f5⟩ :=
    moveLoopRB_sound hcod (cup - lo.length - cap - 1)
      (moveLoopRA d cup ro lo.reverse).diag cap oc sLen sGood hbcA' hocA'
      sTh' sB'
  have hfin : moveSteps d cup cap lo ro false =
      ((moveLoopRA d cup ro lo.reverse).steps ++ ys2 ++
        [⟨dB.dom, dB.cod,
          dB.boxes.take (cap + (cup - lo.length - cap - 1)) ++
            dB.boxes.drop (cup - lo.length + 1),
          dB.offsets.take (cap + (cup - lo.length - cap - 1)) ++
            dB.offsets.drop (cup - lo.length + 1)⟩],
        .ok ⟨dB.dom, dB.cod,
          dB.boxes.take (cap + (cup - lo.length - cap - 1)) ++
            dB.boxes.drop (cup - lo.length + 1),
          dB.offsets.take (cap + (cup - lo.length - cap - 1)) ++
            dB.offsets.drop (cup - lo.length + 1)⟩) := by
    unfold moveSteps
    simp only [Bool.false_eq_true, if_false, sErr, hro, hRB, sIdx]
  refine ⟨_, _, hfin, List.getLast?_concat _, ?_, ?_, ?_⟩
  · simp only [List.length_append, List.length_take, List.length_drop]
    have := f4.trans sLenEq
    omega
  · simp only [List.length_append, List.length_take, List.length_drop]
    have h1 := f4.trans sLenEq
    have h2 := f3
    omega
  · intro b hb
    simp only [List.mem_append] at hb
    rcases hb with hb | hb
    · exact f5 b (List.take_subset _ _ hb)
    · exact f5 b (List.drop_subset _ _ hb)

theorem checkLeg_some {d : Diagram} {cap0 : Nat} {ls0 : Bool} {wire : Nat}
    {cup cap : Nat} {lo ro : List Nat} {ls : Bool}
    (h : checkLeg d cap0 ls0 wire = some (cup, cap, lo, ro, ls)) :
    cap = cap0 ∧ ls = ls0 ∧
    ∃ wire2 cbox coff,
      followWire d cap0 wire = (cup, wire2, lo, ro) ∧
      cup < d.boxes.length ∧
      d.boxes[cup]? = some cbox ∧ d.offsets[cup]? = some coff ∧
      cbox.kind = BoxKind.cup ∧
      (ls0 = true → coff + 1 = wire2) ∧ (ls0 = false → coff = wire2) := by
  unfold checkLeg at h
  rcases hfw : followWire d cap0 wire with ⟨cup1, wire2a, lo1, ro1⟩
  rw [hfw] at h
  have hle : cup1 ≤ d.boxes.length := by
    have hgle := followWireGo_le d (d.boxes.length - (cap0 + 1)) cap0 wire
      [] []
    unfold followWire at hfw
    rw [hfw] at hgle
    exact hgle
  simp only at h
  split at h
  · cases h
  · rename_i hne
    split at h
    · rename_i cbox coff hcb hco
      split at h
      · cases h
      · rename_i hkind
        split at h
        · rename_i hls0
          split at h
          · rename_i halg
            simp only [Option.some.injEq, Prod.mk.injEq] at h
            obtain ⟨h1, h2, h3, h4, h5⟩ := h
            subst h1; subst h2; subst h3; subst h4; subst h5
            refine ⟨rfl, rfl, wire2a, cbox, coff, rfl, by omega, hcb, hco,
              by simpa using hkind, fun _ => halg, fun hf => ?_⟩
            rw [hls0] at hf
            cases hf
          · cases h
        · rename_i hls0
          split at h
          · rename_i halg
            simp only [Option.some.injEq, Prod.mk.injEq] at h
            obtain ⟨h1, h2, h3, h4, h5⟩ := h
            subst h1; subst h2; subst h3; subst h4; subst h5
            refine ⟨rfl, rfl, wire2a, cbox, coff, rfl, by omega, hcb, hco,
              by simpa using hkind, fun ht => ?_, fun _ => halg⟩
            rw [ht] at hls0
            exact absurd rfl hls0
          · cases h
    · cases h

theorem findMoveGo_some {d : Diagram} :
    ∀ (fuel k : Nat) {cup cap : Nat} {lo ro : List Nat} {ls : Bool},
      findMoveGo d fuel k = some (cup, cap, lo, ro, ls) →
      ∃ box off, d.boxes[cap]? = some box ∧ d.offsets[cap]? = some off ∧
        box.kind = BoxKind.cap ∧
        (checkLeg d cap true off = some (cup, cap, lo, ro, ls) ∨
          checkLeg d cap false (off + 1) = some (cup, cap, lo, ro, ls)) := by
  intro fuel
  induction fuel with
  | zero =>
    intro k cup cap lo ro ls h
    exact absurd h (by simp [findMoveGo])
  | succ fuel ih =>
    intro k cup cap lo ro ls h
    unfold findMoveGo at h
    split at h
    · rename_i box off hbox hoff
      split at h
      · rename_i hkind
        split at h
        · rename_i mv hcl
          cases h
          obtain ⟨hcap, -, -⟩ := checkLeg_some hcl
          subst hcap
          exact ⟨box, off, hbox, hoff, hkind, Or.inl hcl⟩
        · rename_i hcl1
          split at h
          · rename_i mv hcl
            cases h
            obtain ⟨hcap, -, -⟩ := checkLeg_some hcl
            subst hcap
            exact ⟨box, off, hbox, hoff, hkind, Or.inr hcl⟩
          · exact ih _ h
      · exact ih _ h
    · cases h

theorem findMove_sound {d : Diagram} {cup cap : Nat} {lo ro : List Nat}
    {ls : Bool} (hfm : findMove d = some (cup, cap, lo, ro, ls)) :
    ∃ capbox oc cupbox coff w2,
      d.boxes[cap]? = some capbox ∧ d.offsets[cap]? = some oc ∧
      capbox.kind = BoxKind.cap ∧
      d.boxes[cup]? = some cupbox ∧ d.offsets[cup]? = some coff ∧
      cupbox.kind = BoxKind.cup ∧
      ((ls = true ∧ Thread d cap oc cup w2 lo ro ∧ coff + 1 = w2) ∨
        (ls = false ∧ Thread d cap (oc + 1) cup w2 lo ro ∧ coff = w2)) := by
  obtain ⟨box, off, hbox, hoff, hkind, hcl⟩ := findMoveGo_some _ _ hfm
  rcases hcl with hcl | hcl
  · obtain ⟨-, hls, wire2, cbox, coff, hfw, hlt, hcb, hco, hck, hal1, -⟩ :=
      checkLeg_some hcl
    unfold followWire at hfw
    obtain ⟨lo2, ro2, hl, hr, hth⟩ :=
      followWireGo_sound d _ _ _ _ _ _ _ _ _ hfw hlt
    simp only [List.nil_append] at hl hr
    subst hl; subst hr
    exact ⟨box, off, cbox, coff, wire2, hbox, hoff, hkind, hcb, hco, hck,
      Or.inl ⟨hls, hth, hal1 rfl⟩⟩
  · obtain ⟨-, hls, wire2, cbox, coff, hfw, hlt, hcb, hco, hck, -, hal2⟩ :=
      checkLeg_some hcl
    unfold followWire at hfw
    obtain ⟨lo2, ro2, hl, hr, hth⟩ :=
      followWireGo_sound d _ _ _ _ _ _ _ _ _ hfw hlt
    simp only [List.nil_append] at hl hr
    subst hl; subst hr
    exact ⟨box, off, cbox, coff, wire2, hbox, hoff, hkind, hcb, hco, hck,
      Or.inr ⟨hls, hth, hal2 rfl⟩⟩

theorem move_ok {d : Diagram} {cup cap : Nat} {lo ro : List Nat} {ls : Bool}
    (hlen : d.offsets.length = d.boxes.length) (hgood : goodBoxes d)
    (hfm : findMove d = some (cup, cap, lo, ro, ls)) :
    ∃ ys fin, moveSteps d cup cap lo ro ls = (ys, .ok fin) ∧
      ys.getLast? = some fin ∧
      fin.boxes.length + 2 = d.boxes.length ∧
      fin.offsets.length = fin.boxes.length ∧
      goodBoxes fin := by
  obtain ⟨capbox, oc, cupbox, coff, w2, hbc, hoc, hbk, hcu, hco, hck, hcase⟩ :=
    findMove_sound hfm
  have hcod : capbox.cod.length = 2 :=
    ((hgood capbox (mem_of_getElem? hbc)).2 hbk).2
  have hdom : cupbox.dom.length = 2 :=
    ((hgood cupbox (mem_of_getElem? hcu)).1 hck).1
  rcases hcase with ⟨hls, hth, hal⟩ | ⟨hls, hth, hal⟩
  · subst hls
    exact moveSteps_left_ok hlen hgood hbc hoc hcu hco hdom hth hal
  · subst hls
    exact moveSteps_right_ok hlen hgood hbc hoc hcod hcu hco hdom hth hal

theorem getLast?_cons_of_ne_nil {α : Type} (a : α) (l : List α)
    (hl : l ≠ []) : (a :: l).getLast? = l.getLast? := by
  have he : a :: l = [a] ++ l := rfl
  rw [he, List.getLast?_append_of_ne_nil _ hl]

theorem getLast_eq_of_getLast?_eq {α : Type} {l1 l2 : List α}
    (h1 : l1 ≠ []) (h2 : l2 ≠ []) (h : l1.getLast? = l2.getLast?) :
    l1.getLast h1 = l2.getLast h2 := by
  have e1 := List.getLast?_eq_getLast l1 h1
  have e2 := List.getLast?_eq_getLast l2 h2
  rw [e1, e2] at h
  exact Option.some.inj h

theorem getLast_cons_append {α : Type} (x fin : α) (ys zs : List α)
    (h : ys.getLast? = some fin) :
    (x :: (ys ++ zs)).getLast (by simp) = (fin :: zs).getLast (by simp) := by
  have hys : ys ≠ [] := by
    intro he
    rw [he] at h
    cases h
  refine getLast_eq_of_getLast?_eq (by simp) (by simp) ?_
  cases zs with
  | nil =>
    rw [List.append_nil, getLast?_cons_of_ne_nil x ys hys, h]
    rfl
  | cons z zs' =>
    rw [getLast?_cons_of_ne_nil x _ (by simp),
      List.getLast?_append_of_ne_nil _ (by simp),
      getLast?_cons_of_ne_nil fin _ (by simp)]

theorem normalizeSnake_sound :
    ∀ (fuel : Nat) (d : Diagram),
      d.offsets.length = d.boxes.length → goodBoxes d →
      d.boxes.length < fuel →
      (normalizeSnake fuel d).2 = none ∧
      findMove ((d :: (normalizeSnake fuel d).1).getLast (by simp)) = none := by
  intro fuel
  induction fuel with
  | zero =>
    intro d _ _ hf
    omega
  | succ fuel ih =>
    intro d hlen hgood hf
    cases hfm : findMove d with
    | none =>
      have hred : normalizeSnake (fuel + 1) d = ([], none) := by
        unfold normalizeSnake
        rw [hfm]
      rw [hred]
      exact ⟨rfl, hfm⟩
    | some mv =>
      obtain ⟨cup, cap, lo, ro, ls⟩ := mv
      obtain ⟨ys, fin, hms, hlast, hblen2, holen2, hgood2⟩ :=
        move_ok hlen hgood hfm
      have hred : normalizeSnake (fuel + 1) d =
          (ys ++ (normalizeSnake fuel fin).1,
            (normalizeSnake fuel fin).2) := by
        show (match findMove d with
          | none => ([], none)
          | some (cup, cap, lo, ro, ls) =>
            match moveSteps d cup cap lo ro ls with
            | (ys, .error e) => (ys, some e)
            | (ys, .ok fin) =>
              let s := normalizeSnake fuel fin
              (ys ++ s.1, s.2)) =
          (ys ++ (normalizeSnake fuel fin).1, (normalizeSnake fuel fin).2)
        rw [hfm]
        show (match moveSteps d cup cap lo ro ls with
          | (ys, .error e) => (ys, some e)
          | (ys, .ok fin) =>
            let s := normalizeSnake fuel fin
            (ys ++ s.1, s.2)) =
          (ys ++ (normalizeSnake fuel fin).1, (normalizeSnake fuel fin).2)
        rw [hms]
      obtain ⟨ih1, ih2⟩ := ih fin holen2 hgood2 (by omega)
      rw [hred]
      refine ⟨ih1, ?_⟩
      have hkey := getLast_cons_append d fin ys (normalizeSnake fuel fin).1
        hlast
      rw [hkey]
      exact ih2

/-- C1: for every diagram of the free rigid category (offset list matching
the box list, cups and caps of the constructor shapes), the normalization
generator terminates: the run completes without exhausting the explicit
recursion bound (no fuel artifact and no interchanger failure, so only
finitely many diagrams are yielded), and the last diagram of the run - the
input itself when nothing is yielded - contains no yankable cup/cap pair:
`find_move` returns `None` on it. -/
theorem normalize_terminates_yankfree (d : Diagram)
    (hlen : d.offsets.length = d.boxes.length) (hgood : goodBoxes d) :
    (d.normalize).2 = none ∧
    findMove ((d :: (d.normalize).1).getLast (by simp)) = none := by
  obtain ⟨h1, h2⟩ := normalizeSnake_sound (d.boxes.length + 1) d hlen hgood
    (by omega)
  have hsnake : normalizeSnake (d.boxes.length + 1) d =
      ((normalizeSnake (d.boxes.length + 1) d).1, none) := by
    rw [← h1]
  have hnorm : d.normalize =
      ((normalizeSnake (d.boxes.length + 1) d).1, none) := by
    show (match normalizeSnake (d.boxes.length + 1) d with
      | (ys, some e) => (ys, some e)
      | (ys, none) =>
        (ys ++ moncatNormalize ((d :: ys).getLast (by simp)) false, none))
      = ((normalizeSnake (d.boxes.length + 1) d).1, none)
    rw [hsnake]
    simp [moncatNormalize]
  rw [hnorm]
  exact ⟨rfl, h2⟩

/-- C1 (witness): instantiation on the right snake over the basic type `w`;
the hypotheses hold by computation and the snake normalizes to a run whose
last diagram admits no further move. -/
theorem normalize_terminates_yankfree_witness :
    (⟨[⟨"w", 0⟩], [⟨"w", 0⟩],
      [⟨"Cap", [], [⟨"w", 1⟩, ⟨"w", 0⟩], .cap, false⟩,
        ⟨"Cup", [⟨"w", 0⟩, ⟨"w", 1⟩], [], .cup, false⟩],
      [1, 0]⟩ : Diagram).offsets.length =
      (⟨[⟨"w", 0⟩], [⟨"w", 0⟩],
        [⟨"Cap", [], [⟨"w", 1⟩, ⟨"w", 0⟩], .cap, false⟩,
          ⟨"Cup", [⟨"w", 0⟩, ⟨"w", 1⟩], [], .cup, false⟩],
        [1, 0]⟩ : Diagram).boxes.length ∧
    goodBoxes (⟨[⟨"w", 0⟩], [⟨"w", 0⟩],
      [⟨"Cap", [], [⟨"w", 1⟩, ⟨"w", 0⟩], .cap, false⟩,
        ⟨"Cup", [⟨"w", 0⟩, ⟨"w", 1⟩], [], .cup, false⟩],
      [1, 0]⟩ : Diagram) ∧
    (((⟨[⟨"w", 0⟩], [⟨"w", 0⟩],
      [⟨"Cap", [], [⟨"w", 1⟩, ⟨"w", 0⟩], .cap, false⟩,
        ⟨"Cup", [⟨"w", 0⟩, ⟨"w", 1⟩], [], .cup, false⟩],
      [1, 0]⟩ : Diagram).normalize).2 = none ∧
      findMove (((⟨[⟨"w", 0⟩], [⟨"w", 0⟩],
        [⟨"Cap", [], [⟨"w", 1⟩, ⟨"w", 0⟩], .cap, false⟩,
          ⟨"Cup", [⟨"w", 0⟩, ⟨"w", 1⟩], [], .cup, false⟩],
        [1, 0]⟩ : Diagram) ::
        ((⟨[⟨"w", 0⟩], [⟨"w", 0⟩],
          [⟨"Cap", [], [⟨"w", 1⟩, ⟨"w", 0⟩], .cap, false⟩,
            ⟨"Cup", [⟨"w", 0⟩, ⟨"w", 1⟩], [], .cup, false⟩],
          [1, 0]⟩ : Diagram).normalize).1).getLast (by simp)) = none) :=
  ⟨rfl, by unfold goodBoxes; decide,
    normalize_terminates_yankfree _ rfl (by unfold goodBoxes; decide)⟩
